import Mathlib

/-! Object manager (`ObjectManager.c`): embedding and verified properties.

The source keeps its session in file-level variables: the handle counter `nextRef`, the linked
list of `MemBlock` records (`memBlockStart` / `memBlockEnd` / `next`), `numBlocks`, the two
byte buffers, the pointer `currBuffer` to the active one, and `freeIndex`.

Representation used here.

* The linked list is the Lean list of its records, from `memBlockStart` along `next`;
  `memBlockEnd` is its last element, which is what `initPool`, `destroyPool`, `insertObject`
  and `compact` maintain.
* C `int` values are `Int`. The retain count is incremented by `addReference` alone, without
  a bound, so calls reach `INT_MAX`; its increment is the 32-bit two's complement one
  (`wrapInt32`), which is what the build computes. The other `int` arithmetic (free index,
  sizes, record count) is exact: with non-negative sizes the free index stays in
  `[0, MEMORY_SIZE]`.
* `Ref` is not declared in `ObjectManager.c` (it comes from `ObjectManager.h`); it is printed
  with `%lu`, and it is taken as an unbounded natural number: wrapping the counter would need
  2^64 successful insertions.
* `MEMORY_SIZE` also comes from the header and is a parameter of `insertObject`.
* A buffer is a total map from index to byte. In C only the indices `0 .. MEMORY_SIZE - 1`
  exist and `memcpy` with a negative length is undefined; the map is total so that `compact`
  is a total function, and the theorems about bytes carry the range conditions.
* `malloc` is taken to succeed and `free` has no visible effect on the records that remain.
-/

namespace ObjectManager

/-- Handle type `Ref` of the header. -/
abbrev Ref := Nat

/-- The null handle `NULL_REF`; the source documents it as 0. -/
def NULL_REF : Ref := 0

/-- One `unsigned char`. -/
abbrev Byte := Fin 256

/-- Contents of one of the two buffers, by index. -/
abbrev Buffer := Int → Byte

/-- Record `struct MEMBLOCK` without its `next` link (the link is the list structure). The
`int` fields hold `Int` values; `count` is only ever written by the wrapping increment of
`addReference` and by the constant 1 of `insertObject`. -/
structure MemBlock where
  numBytes : Int
  startAddr : Int
  ref : Ref
  count : Int
deriving DecidableEq

/-- Which of the two static buffers a pointer refers to. -/
inductive BufId where
  | buffer1
  | buffer2
deriving DecidableEq

/-- Non-null result of `retrieveObject`: the address `&buf[off]`. -/
structure Loc where
  buf : BufId
  off : Int
deriving DecidableEq

/-- File-level variables of `ObjectManager.c`. -/
structure State where
  nextRef : Ref
  memBlocks : List MemBlock
  numBlocks : Int
  buffer1 : Buffer
  buffer2 : Buffer
  currBuffer : BufId
  freeIndex : Int

/-- Contents of the buffer named by a `BufId`. -/
def State.buf (s : State) : BufId → Buffer
  | .buffer1 => s.buffer1
  | .buffer2 => s.buffer2

/-- Contents of the buffer `currBuffer` points to. -/
def State.active (s : State) : Buffer := s.buf s.currBuffer

/-- Byte `i` of the object at location `l`. -/
def State.readLoc (s : State) (l : Loc) (i : Int) : Byte := s.buf l.buf (l.off + i)

/-- Values of the file-level variables when the program starts (static initialisers). -/
def programStart : State where
  nextRef := 1
  memBlocks := []
  numBlocks := 0
  buffer1 := fun _ => 0
  buffer2 := fun _ => 0
  currBuffer := .buffer1
  freeIndex := 0

/-- Source `initPool`: it resets the list, the count, the active buffer and the free index,
and leaves `nextRef` and the buffers as they are. -/
def initPool (s : State) : State :=
  { s with memBlocks := [], numBlocks := 0, currBuffer := .buffer1, freeIndex := 0 }

/-- Source `destroyPool`: frees every record and resets the list, the count and the free
index. -/
def destroyPool (s : State) : State :=
  { s with memBlocks := [], numBlocks := 0, freeIndex := 0 }

/-- Library `memcpy (dst + d, src + s, n)` between two distinct buffers. -/
def memcpy (dst : Buffer) (d : Int) (src : Buffer) (s : Int) (n : Int) : Buffer :=
  fun a => if d ≤ a ∧ a < d + n then src (s + (a - d)) else dst a

/-- Result of the `while` loop of `compact`. -/
structure CompactResult where
  blocks : List MemBlock
  newBuffer : Buffer
  newFreeIndex : Int
  numBlocks : Int

/-- The `while (current != NULL)` loop of `compact`, from `current` on: a record with count 0
is unlinked and `numBlocks` decremented; any other record is copied to `newBuffer` at
`newFreeIndex`, gets that start address, and `newFreeIndex` advances by its size. -/
def compactLoop (currBuffer : Buffer) :
    List MemBlock → Buffer → Int → Int → CompactResult
  | [], newBuffer, newFreeIndex, numBlocks => ⟨[], newBuffer, newFreeIndex, numBlocks⟩
  | current :: rest, newBuffer, newFreeIndex, numBlocks =>
    if current.count = 0 then
      compactLoop currBuffer rest newBuffer newFreeIndex (numBlocks - 1)
    else
      let r := compactLoop currBuffer rest
        (memcpy newBuffer newFreeIndex currBuffer current.startAddr current.numBytes)
        (newFreeIndex + current.numBytes) numBlocks
      ⟨{ current with startAddr := newFreeIndex } :: r.blocks, r.newBuffer, r.newFreeIndex,
        r.numBlocks⟩

/-- Source `compact`. -/
def compact (s : State) : State :=
  match s.currBuffer with
  | .buffer1 =>
    let r := compactLoop s.buffer1 s.memBlocks s.buffer2 0 s.numBlocks
    { s with memBlocks := r.blocks, numBlocks := r.numBlocks, buffer2 := r.newBuffer,
             currBuffer := .buffer2, freeIndex := r.newFreeIndex }
  | .buffer2 =>
    let r := compactLoop s.buffer2 s.memBlocks s.buffer1 0 s.numBlocks
    { s with memBlocks := r.blocks, numBlocks := r.numBlocks, buffer1 := r.newBuffer,
             currBuffer := .buffer1, freeIndex := r.newFreeIndex }

/-- Lines 75-96 of `insertObject`: mint the handle, append the record, advance `freeIndex`. -/
def allocateObject (s : State) (size : Int) : Ref × State :=
  (s.nextRef,
   { s with nextRef := s.nextRef + 1,
            memBlocks := s.memBlocks ++
              [{ numBytes := size, startAddr := s.freeIndex, ref := s.nextRef, count := 1 }],
            numBlocks := s.numBlocks + 1,
            freeIndex := s.freeIndex + size })

/-- Source `insertObject`, with `MEMORY_SIZE` as a parameter. -/
def insertObject (MEMORY_SIZE : Int) (s : State) (size : Int) : Ref × State :=
  if MEMORY_SIZE - s.freeIndex < size then
    if MEMORY_SIZE - (compact s).freeIndex < size then
      (NULL_REF, compact s)
    else
      allocateObject (compact s) size
  else
    allocateObject s size

/-- The scan of `retrieveObject`: start address of the first record with the handle. -/
def retrieveLoop : List MemBlock → Ref → Option Int
  | [], _ => none
  | current :: rest, ref =>
    if current.ref = ref then some current.startAddr else retrieveLoop rest ref

/-- Source `retrieveObject`: `none` is `NULL`; the state is returned as it was received,
since the function writes no variable. -/
def retrieveObject (s : State) (ref : Ref) : Option Loc × State :=
  ((retrieveLoop s.memBlocks ref).map (fun a => { buf := s.currBuffer, off := a }), s)

/-- Largest value of a C `int`. -/
def INT_MAX : Int := 2147483647

/-- Smallest value of a C `int`. -/
def INT_MIN : Int := -2147483648

/-- A value brought back into the range of a 32-bit `int` by two's complement wrap-around. -/
def wrapInt32 (x : Int) : Int := (x + 2147483648) % 4294967296 - 2147483648

/-- The scan of `addReference`: the first record with the handle gets `count++`, a 32-bit
increment. -/
def addReferenceLoop : List MemBlock → Ref → List MemBlock
  | [], _ => []
  | current :: rest, ref =>
    if current.ref = ref then { current with count := wrapInt32 (current.count + 1) } :: rest
    else current :: addReferenceLoop rest ref

/-- Source `addReference`. -/
def addReference (s : State) (ref : Ref) : State :=
  { s with memBlocks := addReferenceLoop s.memBlocks ref }

/-- Source `dropReference`: its body is empty (only the comment `write your code here`). -/
def dropReference (s : State) (_ref : Ref) : State := s

/-- Source `dumpPool`: the values it prints, one tuple (handle, size, start address, retain
count) per record, then the record count and the free index; it writes no variable. -/
def dumpPool (s : State) : List (Ref × Int × Int × Int) × Int × Int :=
  (s.memBlocks.map (fun b => (b.ref, b.numBytes, b.startAddr, b.count)), s.numBlocks,
    s.freeIndex)

/-- Calls a client can make. -/
inductive Op where
  | initPool
  | destroyPool
  | insertObject (size : Int)
  | retrieveObject (ref : Ref)
  | addReference (ref : Ref)
  | dropReference (ref : Ref)
  | compact
  | dumpPool

/-- Effect of one call on the state. -/
def step (MEMORY_SIZE : Int) (s : State) : Op → State
  | .initPool => initPool s
  | .destroyPool => destroyPool s
  | .insertObject size => (insertObject MEMORY_SIZE s size).2
  | .retrieveObject ref => (retrieveObject s ref).2
  | .addReference ref => addReference s ref
  | .dropReference ref => dropReference s ref
  | .compact => compact s
  | .dumpPool => s

/-- Effect of a sequence of calls. -/
def run (MEMORY_SIZE : Int) (s : State) (ops : List Op) : State :=
  ops.foldl (step MEMORY_SIZE) s

/-- States the program can be in: reached from the start of the program by calls. -/
def Reachable (MEMORY_SIZE : Int) (s : State) : Prop :=
  ∃ ops : List Op, run MEMORY_SIZE programStart ops = s

/-! ## Quantities used to state the properties -/

/-- A record is live when its retain count is not 0 (the test of `compact`). -/
def isLive (b : MemBlock) : Bool := decide (b.count ≠ 0)

/-- Records with a non-zero retain count, in table order. -/
def liveBlocks (t : List MemBlock) : List MemBlock := t.filter isLive

/-- Sum of `numBytes` over a list of records. -/
def totalBytes (t : List MemBlock) : Int := (t.map MemBlock.numBytes).sum

/-- State in which `insertObject` makes its reservation: after the compaction when the
request did not fit at first, the state of the call otherwise. -/
def reservationState (MEMORY_SIZE : Int) (s : State) (size : Int) : State :=
  if MEMORY_SIZE - s.freeIndex < size then compact s else s

/-- What `compact` never changes in a record: handle, size and retain count. -/
def MemBlock.identity (b : MemBlock) : Ref × Int × Int := (b.ref, b.numBytes, b.count)

/-- Table part of `compactLoop`: the live records, packed from `start` on. -/
def packFrom : Int → List MemBlock → List MemBlock
  | _, [] => []
  | start, b :: rest =>
    if b.count = 0 then packFrom start rest
    else { b with startAddr := start } :: packFrom (start + b.numBytes) rest

/-! ## Predicates and sample states -/

/-- Address `x` lies in the byte range of the record. -/
def MemBlock.covers (b : MemBlock) (x : Int) : Prop :=
  b.startAddr ≤ x ∧ x < b.startAddr + b.numBytes

instance MemBlock.coversDecidable (b : MemBlock) (x : Int) : Decidable (b.covers x) :=
  inferInstanceAs (Decidable (_ ∧ _))

/-- Every record starts where the previous one ends, the first at `start`. -/
def PackedFrom : Int → List MemBlock → Prop
  | _, [] => True
  | start, b :: rest => b.startAddr = start ∧ PackedFrom (start + b.numBytes) rest

/-- A table with one released record in front of two live ones; `buffer1` is active. -/
def sampleState : State where
  nextRef := 4
  memBlocks := [⟨4, 0, 1, 0⟩, ⟨2, 4, 2, 1⟩, ⟨3, 6, 3, 2⟩]
  numBlocks := 3
  buffer1 := fun a => if a = 4 then 7 else if a = 5 then 9 else if a = 6 then 11 else 0
  buffer2 := fun _ => 0
  currBuffer := .buffer1
  freeIndex := 9

/-- A state within the data-model invariants for capacity 50, holding one released record. -/
def releasedState : State where
  nextRef := 2
  memBlocks := [⟨10, 0, 1, 0⟩]
  numBlocks := 1
  buffer1 := fun _ => 0
  buffer2 := fun _ => 0
  currBuffer := .buffer1
  freeIndex := 10

/-- Pool of capacity 50 after `initPool` and `insertObject (20)`. -/
def smallPool : State := (insertObject 50 (initPool programStart) 20).2

/-- Scenario with capacity 100: `initPool`, then `insertObject (40)`. -/
def scenarioA : Ref × State := insertObject 100 (initPool programStart) 40

/-- Scenario, continued: a second `insertObject (40)`. -/
def scenarioB : Ref × State := insertObject 100 scenarioA.2 40

/-- Scenario, continued: `dropReference` of the first handle. -/
def scenarioDrop : State := dropReference scenarioB.2 scenarioA.1

/-- Scenario, continued: a third `insertObject (40)`. -/
def scenarioC : Ref × State := insertObject 100 scenarioDrop 40

/-- A call whose size argument, if it has one, is non-negative. -/
def Op.sizeNonneg : Op → Prop
  | .insertObject size => 0 ≤ size
  | _ => True

instance Op.sizeNonnegDecidable : (op : Op) → Decidable op.sizeNonneg
  | .insertObject size => inferInstanceAs (Decidable (0 ≤ size))
  | .initPool => isTrue trivial
  | .destroyPool => isTrue trivial
  | .retrieveObject _ => isTrue trivial
  | .addReference _ => isTrue trivial
  | .dropReference _ => isTrue trivial
  | .compact => isTrue trivial
  | .dumpPool => isTrue trivial

/-- The call `insertObject (size)` reaches its allocation (lines 75-96): the request fits
before the compaction or after it. -/
def insertSucceeds (MEMORY_SIZE : Int) (s : State) (size : Int) : Prop :=
  ¬ (MEMORY_SIZE - s.freeIndex < size ∧ MEMORY_SIZE - (compact s).freeIndex < size)

instance insertSucceedsDecidable (MEMORY_SIZE : Int) (s : State) (size : Int) :
    Decidable (insertSucceeds MEMORY_SIZE s size) :=
  inferInstanceAs (Decidable (¬ _))

/-- Values returned by the `insertObject` calls of a sequence of calls, in order. -/
def returnedHandles (MEMORY_SIZE : Int) : State → List Op → List Ref
  | _, [] => []
  | s, .insertObject size :: rest =>
    (insertObject MEMORY_SIZE s size).1 ::
      returnedHandles MEMORY_SIZE (insertObject MEMORY_SIZE s size).2 rest
  | s, op :: rest => returnedHandles MEMORY_SIZE (step MEMORY_SIZE s op) rest

/-- Values returned by the `insertObject` calls of a sequence that reached their allocation,
in order. -/
def issuedHandles (MEMORY_SIZE : Int) : State → List Op → List Ref
  | _, [] => []
  | s, .insertObject size :: rest =>
    if insertSucceeds MEMORY_SIZE s size then
      (insertObject MEMORY_SIZE s size).1 ::
        issuedHandles MEMORY_SIZE (insertObject MEMORY_SIZE s size).2 rest
    else issuedHandles MEMORY_SIZE (insertObject MEMORY_SIZE s size).2 rest
  | s, op :: rest => issuedHandles MEMORY_SIZE (step MEMORY_SIZE s op) rest

/-- A pool that was used and torn down: `initPool`, `insertObject (40)`, `destroyPool`. -/
def usedPool : State := destroyPool (insertObject 100 (initPool programStart) 40).2

/-- Number of `addReference` calls in a sequence of calls. -/
def addReferenceCalls : List Op → Nat
  | [] => 0
  | .addReference _ :: rest => addReferenceCalls rest + 1
  | _ :: rest => addReferenceCalls rest

/-- Calls that bring a retain count to `INT_MAX`: `initPool`, `insertObject (40)`, then
`addReference` of the new handle 2147483646 times. -/
def saturatingCalls : List Op :=
  [.initPool, .insertObject 40] ++ List.replicate 2147483646 (.addReference 1)

/-- State of the program after `saturatingCalls`, capacity 100. -/
def saturatedState : State := run 100 programStart saturatingCalls

/-- Calls that overflow a retain count: `insertObject (40)`, then `addReference` of the new
handle 2147483646 times and once more, 2147483647 times in all. -/
def overflowCalls : List Op :=
  ([.insertObject 40] ++ List.replicate 2147483646 (.addReference 1)) ++ [.addReference 1]

/-- Layout of a table built by insertions and compactions: packed from offset 0, free index
equal to the sum of the sizes, no negative size. -/
def PoolInv (s : State) : Prop :=
  PackedFrom 0 s.memBlocks ∧ s.freeIndex = totalBytes s.memBlocks ∧
    ∀ b ∈ s.memBlocks, 0 ≤ b.numBytes

/-- Handles of the table increase along the table and are below the non-null counter. -/
def HandleInv (s : State) : Prop :=
  s.nextRef ≠ NULL_REF ∧ (s.memBlocks.map MemBlock.ref).Pairwise (fun a b => a < b) ∧
    ∀ b ∈ s.memBlocks, b.ref < s.nextRef

/-- Calls with non-negative sizes used as a sample run after `initPool`. -/
def sampleCalls : List Op :=
  [.insertObject 40, .insertObject 40, .addReference 1, .compact, .insertObject 40,
   .dropReference 1, .retrieveObject 2, .insertObject 15]

/-- Calls of the release scenario: an insertion, one `addReference` and three
`dropReference` of the new handle. -/
def releaseCalls : List Op :=
  [.insertObject 40, .addReference 1, .dropReference 1, .dropReference 1, .dropReference 1]

/-! ## Auxiliary lemmas -/

theorem compactLoop_blocks (cur : Buffer) (t : List MemBlock) (nb : Buffer) (nf n : Int) :
    (compactLoop cur t nb nf n).blocks = packFrom nf t := by
  induction t generalizing nb nf n with
  | nil => rfl
  | cons b rest ih =>
    by_cases h : b.count = 0
    · simp [compactLoop, packFrom, h, ih]
    · simp [compactLoop, packFrom, h, ih]

theorem totalBytes_cons (b : MemBlock) (t : List MemBlock) :
    totalBytes (b :: t) = b.numBytes + totalBytes t := by
  simp [totalBytes]

theorem liveBlocks_cons_dead (b : MemBlock) (t : List MemBlock) (h : b.count = 0) :
    liveBlocks (b :: t) = liveBlocks t := by
  simp [liveBlocks, isLive, h]

theorem liveBlocks_cons_live (b : MemBlock) (t : List MemBlock) (h : b.count ≠ 0) :
    liveBlocks (b :: t) = b :: liveBlocks t := by
  simp [liveBlocks, isLive, h]

theorem compactLoop_newFreeIndex (cur : Buffer) (t : List MemBlock) (nb : Buffer) (nf n : Int) :
    (compactLoop cur t nb nf n).newFreeIndex = nf + totalBytes (liveBlocks t) := by
  induction t generalizing nb nf n with
  | nil => simp [compactLoop, liveBlocks, totalBytes]
  | cons b rest ih =>
    by_cases h : b.count = 0
    · simp [compactLoop, h, ih, liveBlocks_cons_dead]
    · simp [compactLoop, h, ih, liveBlocks_cons_live, totalBytes_cons]
      ring

theorem compact_memBlocks (s : State) : (compact s).memBlocks = packFrom 0 s.memBlocks := by
  unfold compact
  cases s.currBuffer <;> simp [compactLoop_blocks]

theorem compact_freeIndex (s : State) :
    (compact s).freeIndex = totalBytes (liveBlocks s.memBlocks) := by
  unfold compact
  cases s.currBuffer <;> simp [compactLoop_newFreeIndex]

theorem compact_nextRef (s : State) : (compact s).nextRef = s.nextRef := by
  unfold compact
  cases s.currBuffer <;> rfl

theorem packFrom_identity (st : Int) (t : List MemBlock) :
    (packFrom st t).map MemBlock.identity = (liveBlocks t).map MemBlock.identity := by
  induction t generalizing st with
  | nil => rfl
  | cons b rest ih =>
    by_cases h : b.count = 0
    · simp [packFrom, h, ih, liveBlocks_cons_dead]
    · simp [packFrom, h, ih, liveBlocks_cons_live, MemBlock.identity]

theorem packFrom_live (st : Int) (t : List MemBlock) : ∀ b ∈ packFrom st t, b.count ≠ 0 := by
  induction t generalizing st with
  | nil => simp [packFrom]
  | cons b rest ih =>
    by_cases h : b.count = 0
    · simpa [packFrom, h] using ih st
    · intro c hc
      simp only [packFrom, h, if_false, List.mem_cons] at hc
      rcases hc with rfl | hc
      · exact h
      · exact ih _ c hc

theorem packFrom_packed (st : Int) (t : List MemBlock) : PackedFrom st (packFrom st t) := by
  induction t generalizing st with
  | nil => simp [packFrom, PackedFrom]
  | cons b rest ih =>
    by_cases h : b.count = 0
    · simpa [packFrom, h] using ih st
    · simp only [packFrom, h, if_false, PackedFrom, true_and]
      exact ih _

theorem totalBytes_packFrom (st : Int) (t : List MemBlock) :
    totalBytes (packFrom st t) = totalBytes (liveBlocks t) := by
  have h := congrArg (fun l => (l.map (fun p : Ref × Int × Int => p.2.1)).sum) (packFrom_identity st t)
  simpa [totalBytes, MemBlock.identity, List.map_map, Function.comp_def] using h

/-- A packed table of live records is left as it is by the table part of the loop. -/
theorem packFrom_of_packed (st : Int) (l : List MemBlock) (hp : PackedFrom st l)
    (hl : ∀ b ∈ l, b.count ≠ 0) : packFrom st l = l := by
  induction l generalizing st with
  | nil => rfl
  | cons b rest ih =>
    have hb : b.count ≠ 0 := hl b (List.mem_cons_self _ _)
    obtain ⟨h1, h2⟩ := hp
    simp only [packFrom, hb, if_false]
    rw [ih _ h2 (fun c hc => hl c (List.mem_cons_of_mem _ hc))]
    cases b
    simp_all

theorem liveBlocks_of_live (l : List MemBlock) (hl : ∀ b ∈ l, b.count ≠ 0) :
    liveBlocks l = l := by
  simp only [liveBlocks, List.filter_eq_self, isLive, decide_eq_true_eq]
  exact hl

theorem packed_startAddr (st : Int) (l : List MemBlock) (hp : PackedFrom st l) :
    ∀ (i : Nat) (h : i < l.length), l[i].startAddr = st + totalBytes (l.take i) := by
  induction l generalizing st with
  | nil => intro i h; simp at h
  | cons b rest ih =>
    obtain ⟨h1, h2⟩ := hp
    intro i h
    cases i with
    | zero => simp [h1, totalBytes]
    | succ k =>
      simp only [List.getElem_cons_succ, List.take_succ_cons, totalBytes_cons]
      rw [ih _ h2 k (by simpa using h)]
      ring

theorem packed_bounds (st : Int) (l : List MemBlock) (hp : PackedFrom st l)
    (hn : ∀ b ∈ l, 0 ≤ b.numBytes) :
    ∀ b ∈ l, st ≤ b.startAddr ∧ b.startAddr + b.numBytes ≤ st + totalBytes l := by
  induction l generalizing st with
  | nil => simp
  | cons b rest ih =>
    obtain ⟨h1, h2⟩ := hp
    have hb := hn b (List.mem_cons_self _ _)
    have hrest : ∀ c ∈ rest, 0 ≤ c.numBytes := fun c hc => hn c (List.mem_cons_of_mem _ hc)
    have htot : 0 ≤ totalBytes rest := by
      unfold totalBytes
      apply List.sum_nonneg
      intro x hx
      simp only [List.mem_map] at hx
      obtain ⟨c, hc, rfl⟩ := hx
      exact hrest c hc
    intro c hc
    rw [totalBytes_cons]
    rcases List.mem_cons.1 hc with rfl | hc
    · constructor <;> omega
    · have := ih _ h2 hrest c hc
      constructor <;> omega

theorem packed_pairwise (st : Int) (l : List MemBlock) (hp : PackedFrom st l)
    (hn : ∀ b ∈ l, 0 ≤ b.numBytes) :
    l.Pairwise (fun a b => a.startAddr + a.numBytes ≤ b.startAddr) := by
  induction l generalizing st with
  | nil => exact List.Pairwise.nil
  | cons b rest ih =>
    obtain ⟨h1, h2⟩ := hp
    have hrest : ∀ c ∈ rest, 0 ≤ c.numBytes := fun c hc => hn c (List.mem_cons_of_mem _ hc)
    refine List.Pairwise.cons ?_ (ih _ h2 hrest)
    intro c hc
    have := (packed_bounds _ rest h2 hrest c hc).1
    omega

theorem packed_last (st : Int) (l : List MemBlock) (hp : PackedFrom st l) (hne : l ≠ []) :
    ∃ b ∈ l, b.startAddr + b.numBytes = st + totalBytes l := by
  induction l generalizing st with
  | nil => exact absurd rfl hne
  | cons b rest ih =>
    obtain ⟨h1, h2⟩ := hp
    by_cases hr : rest = []
    · subst hr
      exact ⟨b, List.mem_cons_self _ _, by simp [totalBytes, h1]⟩
    · obtain ⟨c, hc, hcs⟩ := ih _ h2 hr
      refine ⟨c, List.mem_cons_of_mem _ hc, ?_⟩
      rw [totalBytes_cons, hcs]
      ring

theorem retrieveLoop_eq_none_iff (t : List MemBlock) (r : Ref) :
    retrieveLoop t r = none ↔ ∀ b ∈ t, b.ref ≠ r := by
  induction t with
  | nil => simp [retrieveLoop]
  | cons b rest ih =>
    by_cases h : b.ref = r
    · simp [retrieveLoop, h]
    · simp [retrieveLoop, h, ih]

theorem retrieveLoop_first (pre : List MemBlock) (b : MemBlock) (post : List MemBlock) (r : Ref)
    (hpre : ∀ c ∈ pre, c.ref ≠ r) (hb : b.ref = r) :
    retrieveLoop (pre ++ b :: post) r = some b.startAddr := by
  induction pre with
  | nil => simp [retrieveLoop, hb]
  | cons c rest ih =>
    have hc : c.ref ≠ r := hpre c (List.mem_cons_self _ _)
    simp only [List.cons_append, retrieveLoop, hc, if_false]
    exact ih (fun d hd => hpre d (List.mem_cons_of_mem _ hd))

theorem exists_first (t : List MemBlock) (r : Ref) (h : ∃ b ∈ t, b.ref = r) :
    ∃ pre b post, t = pre ++ b :: post ∧ (∀ c ∈ pre, c.ref ≠ r) ∧ b.ref = r := by
  induction t with
  | nil => simp at h
  | cons c rest ih =>
    by_cases hc : c.ref = r
    · exact ⟨[], c, rest, rfl, by simp, hc⟩
    · obtain ⟨b, hb, hbr⟩ := h
      have hb2 : b ∈ rest := by
        rcases List.mem_cons.1 hb with rfl | hb
        · exact absurd hbr hc
        · exact hb
      obtain ⟨pre, b2, post, e, hp, hb3⟩ := ih ⟨b, hb2, hbr⟩
      refine ⟨c :: pre, b2, post, by simp [e], ?_, hb3⟩
      intro d hd
      rcases List.mem_cons.1 hd with rfl | hd
      · exact hc
      · exact hp d hd

theorem memcpy_inside (dst : Buffer) (d : Int) (src : Buffer) (s n i : Int)
    (h0 : 0 ≤ i) (h1 : i < n) : memcpy dst d src s n (d + i) = src (s + i) := by
  have h : d ≤ d + i ∧ d + i < d + n := ⟨by omega, by omega⟩
  simp only [memcpy, h, and_self, if_true]
  congr 1
  omega

theorem memcpy_below (dst : Buffer) (d : Int) (src : Buffer) (s n x : Int) (h : x < d) :
    memcpy dst d src s n x = dst x := by
  have h2 : ¬ (d ≤ x ∧ x < d + n) := fun hc => by omega
  simp only [memcpy, h2, if_false]

/-- The loop writes the target buffer only at and above its write cursor. -/
theorem compactLoop_newBuffer_below (cur : Buffer) (t : List MemBlock) (nb : Buffer)
    (nf n : Int) (hn : ∀ b ∈ t, b.count ≠ 0 → 0 ≤ b.numBytes) :
    ∀ x : Int, x < nf → (compactLoop cur t nb nf n).newBuffer x = nb x := by
  induction t generalizing nb nf n with
  | nil => intro x _; rfl
  | cons b rest ih =>
    have hrest : ∀ c ∈ rest, c.count ≠ 0 → 0 ≤ c.numBytes :=
      fun c hc => hn c (List.mem_cons_of_mem _ hc)
    intro x hx
    by_cases h : b.count = 0
    · simp only [compactLoop, h, if_true]
      exact ih _ _ _ hrest x hx
    · have hb : 0 ≤ b.numBytes := hn b (List.mem_cons_self _ _) h
      simp only [compactLoop, h, if_false]
      rw [ih _ _ _ hrest x (by omega)]
      exact memcpy_below _ _ _ _ _ _ hx

/-- Each live record, paired in order with its relocated record, has its bytes in the target
buffer at the new start address. -/
theorem compactLoop_copies (cur : Buffer) (t : List MemBlock) (nb : Buffer) (nf n : Int)
    (hn : ∀ b ∈ t, b.count ≠ 0 → 0 ≤ b.numBytes) :
    List.Forall₂
      (fun old new => new.ref = old.ref ∧ ∀ i : Int, 0 ≤ i → i < old.numBytes →
        (compactLoop cur t nb nf n).newBuffer (new.startAddr + i) = cur (old.startAddr + i))
      (liveBlocks t) (compactLoop cur t nb nf n).blocks := by
  induction t generalizing nb nf n with
  | nil => simp [compactLoop, liveBlocks]
  | cons b rest ih =>
    have hrest : ∀ c ∈ rest, c.count ≠ 0 → 0 ≤ c.numBytes :=
      fun c hc => hn c (List.mem_cons_of_mem _ hc)
    by_cases h : b.count = 0
    · simp only [compactLoop, h, if_true, liveBlocks_cons_dead]
      exact ih _ _ _ hrest
    · simp only [compactLoop, h, if_false, liveBlocks_cons_live _ _ h]
      refine List.Forall₂.cons ⟨rfl, ?_⟩ (ih _ _ _ hrest)
      intro i h0 h1
      rw [compactLoop_newBuffer_below cur rest _ _ _ hrest (nf + i) (by omega)]
      exact memcpy_inside _ _ _ _ _ _ h0 h1

theorem compact_copies (s : State) (hn : ∀ b ∈ s.memBlocks, b.count ≠ 0 → 0 ≤ b.numBytes) :
    List.Forall₂
      (fun old new => new.ref = old.ref ∧ ∀ i : Int, 0 ≤ i → i < old.numBytes →
        (compact s).active (new.startAddr + i) = s.active (old.startAddr + i))
      (liveBlocks s.memBlocks) (compact s).memBlocks := by
  unfold compact State.active
  cases hc : s.currBuffer
  · exact compactLoop_copies s.buffer1 s.memBlocks s.buffer2 0 s.numBlocks hn
  · exact compactLoop_copies s.buffer2 s.memBlocks s.buffer1 0 s.numBlocks hn

/-- Lookup through a table paired record by record with the live records of another. -/
theorem forall₂_lookup (R : MemBlock → MemBlock → Prop)
    (hR : ∀ a b, R a b → b.ref = a.ref) (pre : List MemBlock) (b : MemBlock)
    (post t2 : List MemBlock) (hpre : ∀ c ∈ pre, c.ref ≠ b.ref) (hb : b.count ≠ 0)
    (h : List.Forall₂ R (liveBlocks (pre ++ b :: post)) t2) :
    ∃ b2, retrieveLoop t2 b.ref = some b2.startAddr ∧ R b b2 := by
  induction pre generalizing t2 with
  | nil =>
    rw [List.nil_append, liveBlocks_cons_live _ _ hb] at h
    rcases List.forall₂_cons_left_iff.1 h with ⟨b2, t3, hab, _, rfl⟩
    exact ⟨b2, by simp [retrieveLoop, hR _ _ hab], hab⟩
  | cons c rest ih =>
    have hc : c.ref ≠ b.ref := hpre c (List.mem_cons_self _ _)
    have hrest : ∀ d ∈ rest, d.ref ≠ b.ref := fun d hd => hpre d (List.mem_cons_of_mem _ hd)
    by_cases hl : c.count = 0
    · rw [List.cons_append, liveBlocks_cons_dead _ _ hl] at h
      exact ih t2 hrest h
    · rw [List.cons_append, liveBlocks_cons_live _ _ hl] at h
      rcases List.forall₂_cons_left_iff.1 h with ⟨c2, t3, hab, htl, rfl⟩
      obtain ⟨b2, h1, h2⟩ := ih _ hrest htl
      refine ⟨b2, ?_, h2⟩
      have hc2 : ¬ c2.ref = b.ref := by rw [hR _ _ hab]; exact hc
      simp only [retrieveLoop, hc2, if_false]
      exact h1

theorem step_nextRef_ne_null (M : Int) (s : State) (op : Op) (h : s.nextRef ≠ NULL_REF) :
    (step M s op).nextRef ≠ NULL_REF := by
  cases op with
  | insertObject size =>
    simp only [step, insertObject]
    split
    · split
      · simpa [compact_nextRef] using h
      · simp [allocateObject, NULL_REF]
    · simp [allocateObject, NULL_REF]
  | compact => simpa [step, compact_nextRef] using h
  | _ => exact h

theorem run_nextRef_ne_null (M : Int) (ops : List Op) (s : State) (h : s.nextRef ≠ NULL_REF) :
    (run M s ops).nextRef ≠ NULL_REF := by
  induction ops generalizing s with
  | nil => exact h
  | cons op rest ih => exact ih _ (step_nextRef_ne_null M s op h)

/-- The handle counter is never the null handle in a state the program reaches. -/
theorem reachable_nextRef_ne_null (M : Int) (s : State) (h : Reachable M s) :
    s.nextRef ≠ NULL_REF := by
  obtain ⟨ops, rfl⟩ := h
  exact run_nextRef_ne_null M ops programStart (by decide)

theorem insertObject_fst_eq_null_iff (M : Int) (s : State) (size : Int)
    (h : s.nextRef ≠ NULL_REF) :
    (insertObject M s size).1 = NULL_REF ↔
      (M - s.freeIndex < size ∧ M - totalBytes (liveBlocks s.memBlocks) < size) := by
  unfold insertObject
  by_cases h1 : M - s.freeIndex < size
  · by_cases h2 : M - (compact s).freeIndex < size
    · simp only [h1, h2, if_true, true_and, true_iff]
      rwa [compact_freeIndex] at h2
    · simp only [h1, h2, if_true, if_false, true_and, allocateObject, compact_nextRef]
      rw [compact_freeIndex] at h2
      exact ⟨fun hc => absurd hc h, fun hc => absurd hc h2⟩
  · simp only [h1, if_false, false_and, allocateObject]
    exact ⟨fun hc => absurd hc h, False.elim⟩

theorem totalBytes_append (t u : List MemBlock) :
    totalBytes (t ++ u) = totalBytes t + totalBytes u := by
  simp [totalBytes]

theorem totalBytes_nonneg (t : List MemBlock) (hn : ∀ b ∈ t, 0 ≤ b.numBytes) :
    0 ≤ totalBytes t := by
  unfold totalBytes
  apply List.sum_nonneg
  intro x hx
  simp only [List.mem_map] at hx
  obtain ⟨c, hc, rfl⟩ := hx
  exact hn c hc

theorem packedFrom_append (st : Int) (t : List MemBlock) (b : MemBlock)
    (hp : PackedFrom st t) (hb : b.startAddr = st + totalBytes t) :
    PackedFrom st (t ++ [b]) := by
  induction t generalizing st with
  | nil => simpa [PackedFrom, totalBytes] using hb
  | cons c rest ih =>
    obtain ⟨h1, h2⟩ := hp
    refine ⟨h1, ih _ h2 ?_⟩
    rw [hb, totalBytes_cons]
    ring

theorem totalBytes_liveBlocks_le (t : List MemBlock) (hn : ∀ b ∈ t, 0 ≤ b.numBytes) :
    totalBytes (liveBlocks t) ≤ totalBytes t := by
  induction t with
  | nil => exact le_refl _
  | cons b rest ih =>
    have hb := hn b (List.mem_cons_self _ _)
    have hr := ih (fun c hc => hn c (List.mem_cons_of_mem _ hc))
    by_cases h : b.count = 0
    · rw [liveBlocks_cons_dead _ _ h, totalBytes_cons]
      omega
    · rw [liveBlocks_cons_live _ _ h, totalBytes_cons, totalBytes_cons]
      omega

theorem totalBytes_liveBlocks_add_dead (t : List MemBlock) (hn : ∀ b ∈ t, 0 ≤ b.numBytes)
    (d : MemBlock) (hd : d ∈ t) (hc : d.count = 0) :
    totalBytes (liveBlocks t) + d.numBytes ≤ totalBytes t := by
  induction t with
  | nil => simp at hd
  | cons b rest ih =>
    have hb := hn b (List.mem_cons_self _ _)
    have hrest : ∀ c ∈ rest, 0 ≤ c.numBytes := fun c hc => hn c (List.mem_cons_of_mem _ hc)
    rcases List.mem_cons.1 hd with rfl | hd2
    · rw [liveBlocks_cons_dead _ _ hc, totalBytes_cons]
      have := totalBytes_liveBlocks_le rest hrest
      omega
    · have hr := ih hrest hd2
      by_cases h : b.count = 0
      · rw [liveBlocks_cons_dead _ _ h, totalBytes_cons]
        omega
      · rw [liveBlocks_cons_live _ _ h, totalBytes_cons, totalBytes_cons]
        omega

theorem packFrom_mem (st : Int) (t : List MemBlock) :
    ∀ c ∈ packFrom st t, ∃ d ∈ t, d.ref = c.ref ∧ d.numBytes = c.numBytes ∧ d.count = c.count := by
  induction t generalizing st with
  | nil => simp [packFrom]
  | cons b rest ih =>
    intro c hc
    by_cases h : b.count = 0
    · simp only [packFrom, h, if_true] at hc
      obtain ⟨d, hd, e⟩ := ih _ c hc
      exact ⟨d, List.mem_cons_of_mem _ hd, e⟩
    · simp only [packFrom, h, if_false, List.mem_cons] at hc
      rcases hc with rfl | hc
      · exact ⟨b, List.mem_cons_self _ _, rfl, rfl, rfl⟩
      · obtain ⟨d, hd, e⟩ := ih _ c hc
        exact ⟨d, List.mem_cons_of_mem _ hd, e⟩

theorem addReferenceLoop_first (pre : List MemBlock) (b : MemBlock) (post : List MemBlock)
    (r : Ref) (hpre : ∀ c ∈ pre, c.ref ≠ r) (hb : b.ref = r) :
    addReferenceLoop (pre ++ b :: post) r
      = pre ++ { b with count := wrapInt32 (b.count + 1) } :: post := by
  induction pre with
  | nil => simp [addReferenceLoop, hb]
  | cons c rest ih =>
    have hc : c.ref ≠ r := hpre c (List.mem_cons_self _ _)
    have e := ih (fun d hd => hpre d (List.mem_cons_of_mem _ hd))
    simp only [List.cons_append, addReferenceLoop, hc, if_false]
    exact congrArg (fun l => c :: l) e

theorem addReferenceLoop_absent (t : List MemBlock) (r : Ref) (h : ∀ b ∈ t, b.ref ≠ r) :
    addReferenceLoop t r = t := by
  induction t with
  | nil => rfl
  | cons c rest ih =>
    have hc : c.ref ≠ r := h c (List.mem_cons_self _ _)
    simp only [addReferenceLoop, hc, if_false]
    rw [ih (fun d hd => h d (List.mem_cons_of_mem _ hd))]

/-- The scan of `addReference` changes no handle, start address or size. -/
theorem addReferenceLoop_layout (t : List MemBlock) (r : Ref) :
    (addReferenceLoop t r).map (fun b => (b.ref, b.startAddr, b.numBytes))
      = t.map (fun b => (b.ref, b.startAddr, b.numBytes)) := by
  induction t with
  | nil => rfl
  | cons c rest ih =>
    by_cases hc : c.ref = r
    · simp [addReferenceLoop, hc]
    · simp [addReferenceLoop, hc, ih]

theorem addReferenceLoop_mem (t : List MemBlock) (r : Ref) :
    ∀ c ∈ addReferenceLoop t r, ∃ d ∈ t, d.ref = c.ref ∧ d.numBytes = c.numBytes ∧
      d.startAddr = c.startAddr ∧
      (c.count = d.count ∨ c.count = wrapInt32 (d.count + 1)) := by
  induction t with
  | nil => simp [addReferenceLoop]
  | cons b rest ih =>
    intro c hc
    by_cases h : b.ref = r
    · simp only [addReferenceLoop, if_pos h, List.mem_cons] at hc
      rcases hc with rfl | hc
      · exact ⟨b, List.mem_cons_self _ _, rfl, rfl, rfl, Or.inr rfl⟩
      · exact ⟨c, List.mem_cons_of_mem _ hc, rfl, rfl, rfl, Or.inl rfl⟩
    · simp only [addReferenceLoop, h, if_false, List.mem_cons] at hc
      rcases hc with rfl | hc
      · exact ⟨c, List.mem_cons_self _ _, rfl, rfl, rfl, Or.inl rfl⟩
      · obtain ⟨d, hd, e⟩ := ih c hc
        exact ⟨d, List.mem_cons_of_mem _ hd, e⟩

theorem addReferenceLoop_packed (st : Int) (t : List MemBlock) (r : Ref)
    (hp : PackedFrom st t) : PackedFrom st (addReferenceLoop t r) := by
  induction t generalizing st with
  | nil => exact hp
  | cons c rest ih =>
    obtain ⟨h1, h2⟩ := hp
    by_cases hc : c.ref = r
    · simp only [addReferenceLoop, hc, if_true]
      exact ⟨h1, h2⟩
    · simp only [addReferenceLoop, hc, if_false]
      exact ⟨h1, ih _ h2⟩

theorem addReferenceLoop_totalBytes (t : List MemBlock) (r : Ref) :
    totalBytes (addReferenceLoop t r) = totalBytes t := by
  have h := congrArg (fun l => (l.map (fun p : Ref × Int × Int => p.2.2)).sum)
    (addReferenceLoop_layout t r)
  simpa [totalBytes, List.map_map, Function.comp_def] using h

theorem insertObject_of_succeeds (M : Int) (s : State) (size : Int)
    (h : insertSucceeds M s size) :
    insertObject M s size = allocateObject (reservationState M s size) size := by
  unfold insertSucceeds at h
  unfold insertObject reservationState
  by_cases h1 : M - s.freeIndex < size
  · have h2 : ¬ M - (compact s).freeIndex < size := fun hc => h ⟨h1, hc⟩
    simp [h1, h2]
  · simp [h1]

theorem insertObject_of_fails (M : Int) (s : State) (size : Int)
    (h : ¬ insertSucceeds M s size) : insertObject M s size = (NULL_REF, compact s) := by
  unfold insertSucceeds at h
  have h' := not_not.1 h
  simp [insertObject, h'.1, h'.2]

theorem reservationState_cases (M : Int) (s : State) (size : Int) :
    reservationState M s size = s ∨ reservationState M s size = compact s := by
  unfold reservationState
  by_cases h1 : M - s.freeIndex < size
  · right; simp [h1]
  · left; simp [h1]

theorem poolInv_initPool (s : State) : PoolInv (initPool s) :=
  ⟨trivial, rfl, fun _ h => absurd h (List.not_mem_nil _)⟩

theorem poolInv_destroyPool (s : State) : PoolInv (destroyPool s) :=
  ⟨trivial, rfl, fun _ h => absurd h (List.not_mem_nil _)⟩

theorem poolInv_compact (s : State) (h : ∀ b ∈ s.memBlocks, 0 ≤ b.numBytes) :
    PoolInv (compact s) := by
  refine ⟨?_, ?_, ?_⟩
  · rw [compact_memBlocks]; exact packFrom_packed 0 _
  · rw [compact_freeIndex, compact_memBlocks, totalBytes_packFrom]
  · intro c hc
    rw [compact_memBlocks] at hc
    obtain ⟨d, hd, -, e, -⟩ := packFrom_mem 0 _ c hc
    rw [← e]
    exact h d hd

theorem poolInv_allocateObject (s : State) (size : Int) (h : PoolInv s) (hs : 0 ≤ size) :
    PoolInv (allocateObject s size).2 := by
  obtain ⟨hp, hf, hn⟩ := h
  refine ⟨?_, ?_, ?_⟩
  · exact packedFrom_append 0 _ _ hp (by simp [hf])
  · simp [allocateObject, totalBytes_append, totalBytes, hf]
  · intro c hc
    simp only [allocateObject, List.mem_append, List.mem_singleton] at hc
    rcases hc with hc | rfl
    · exact hn c hc
    · exact hs

theorem poolInv_insertObject (M : Int) (s : State) (size : Int) (h : PoolInv s)
    (hs : 0 ≤ size) : PoolInv (insertObject M s size).2 := by
  by_cases hok : insertSucceeds M s size
  · rw [insertObject_of_succeeds M s size hok]
    rcases reservationState_cases M s size with e | e
    · rw [e]; exact poolInv_allocateObject s size h hs
    · rw [e]; exact poolInv_allocateObject _ size (poolInv_compact s h.2.2) hs
  · rw [insertObject_of_fails M s size hok]
    exact poolInv_compact s h.2.2

theorem poolInv_addReference (s : State) (r : Ref) (h : PoolInv s) :
    PoolInv (addReference s r) := by
  obtain ⟨hp, hf, hn⟩ := h
  refine ⟨addReferenceLoop_packed 0 _ r hp, ?_, ?_⟩
  · simp only [addReference, addReferenceLoop_totalBytes]
    exact hf
  · intro c hc
    obtain ⟨d, hd, -, e, -⟩ := addReferenceLoop_mem _ r c hc
    rw [← e]
    exact hn d hd

theorem poolInv_step (M : Int) (s : State) (op : Op) (h : PoolInv s) (hop : op.sizeNonneg) :
    PoolInv (step M s op) := by
  cases op with
  | initPool => exact poolInv_initPool s
  | destroyPool => exact poolInv_destroyPool s
  | insertObject size => exact poolInv_insertObject M s size h hop
  | retrieveObject r => exact h
  | addReference r => exact poolInv_addReference s r h
  | dropReference r => exact h
  | compact => exact poolInv_compact s h.2.2
  | dumpPool => exact h

theorem poolInv_run (M : Int) (ops : List Op) (s : State) (h : PoolInv s)
    (hops : ∀ op ∈ ops, op.sizeNonneg) : PoolInv (run M s ops) := by
  induction ops generalizing s with
  | nil => exact h
  | cons op rest ih =>
    exact ih _ (poolInv_step M s op h (hops op (List.mem_cons_self _ _)))
      (fun o ho => hops o (List.mem_cons_of_mem _ ho))

theorem compact_freeIndex_le (s : State) (h : PoolInv s) :
    (compact s).freeIndex ≤ s.freeIndex := by
  rw [compact_freeIndex, h.2.1]
  exact totalBytes_liveBlocks_le _ h.2.2

theorem step_freeIndex_le (M : Int) (s : State) (op : Op) (hM : 0 ≤ M) (h : PoolInv s)
    (hle : s.freeIndex ≤ M) : (step M s op).freeIndex ≤ M := by
  have hc := compact_freeIndex_le s h
  cases op with
  | initPool => exact hM
  | destroyPool => exact hM
  | insertObject size =>
    simp only [step]
    by_cases hok : insertSucceeds M s size
    · rw [insertObject_of_succeeds M s size hok]
      unfold insertSucceeds at hok
      unfold reservationState
      by_cases h1 : M - s.freeIndex < size
      · have h2 : ¬ M - (compact s).freeIndex < size := fun hc2 => hok ⟨h1, hc2⟩
        simp only [h1, if_true, allocateObject]
        omega
      · simp only [h1, if_false, allocateObject]
        omega
    · rw [insertObject_of_fails M s size hok]
      exact le_trans hc hle
  | retrieveObject r => exact hle
  | addReference r => exact hle
  | dropReference r => exact hle
  | compact => exact le_trans hc hle
  | dumpPool => exact hle

theorem run_freeIndex_le (M : Int) (ops : List Op) (s : State) (hM : 0 ≤ M) (h : PoolInv s)
    (hle : s.freeIndex ≤ M) (hops : ∀ op ∈ ops, op.sizeNonneg) :
    (run M s ops).freeIndex ≤ M := by
  induction ops generalizing s with
  | nil => exact hle
  | cons op rest ih =>
    exact ih _ (poolInv_step M s op h (hops op (List.mem_cons_self _ _)))
      (step_freeIndex_le M s op hM h hle) (fun o ho => hops o (List.mem_cons_of_mem _ ho))

theorem wrapInt32_of_range (x : Int) (h1 : -2147483648 ≤ x) (h2 : x ≤ 2147483647) :
    wrapInt32 x = x := by
  unfold wrapInt32
  omega

theorem addReferenceCalls_cons (op : Op) (rest : List Op) :
    addReferenceCalls (op :: rest) = addReferenceCalls rest + addReferenceCalls [op] := by
  cases op <;> simp [addReferenceCalls]

/-- One call keeps the retain counts between 1 and a bound that grows by one with an
`addReference`, as long as the bound stays within `INT_MAX`. -/
theorem counts_step (M : Int) (s : State) (op : Op) (c0 : Int) (h1 : 1 ≤ c0)
    (h : ∀ b ∈ s.memBlocks, 1 ≤ b.count ∧ b.count ≤ c0)
    (hc0 : c0 + addReferenceCalls [op] ≤ 2147483647) :
    ∀ b ∈ (step M s op).memBlocks, 1 ≤ b.count ∧ b.count ≤ c0 + addReferenceCalls [op] := by
  have hle : c0 ≤ c0 + addReferenceCalls [op] := by omega
  have hcomp : ∀ b ∈ (compact s).memBlocks, 1 ≤ b.count ∧ b.count ≤ c0 := by
    intro c hc
    rw [compact_memBlocks] at hc
    obtain ⟨d, hd, -, -, e⟩ := packFrom_mem 0 _ c hc
    rw [← e]
    exact h d hd
  have halloc : ∀ (t : State) (size : Int), (∀ b ∈ t.memBlocks, 1 ≤ b.count ∧ b.count ≤ c0) →
      ∀ b ∈ (allocateObject t size).2.memBlocks, 1 ≤ b.count ∧ b.count ≤ c0 := by
    intro t size ht c hc
    simp only [allocateObject, List.mem_append, List.mem_singleton] at hc
    rcases hc with hc | rfl
    · exact ht c hc
    · exact ⟨le_refl _, h1⟩
  have hweak : ∀ (t : List MemBlock), (∀ b ∈ t, 1 ≤ b.count ∧ b.count ≤ c0) →
      ∀ b ∈ t, 1 ≤ b.count ∧ b.count ≤ c0 + addReferenceCalls [op] :=
    fun t ht b hb => ⟨(ht b hb).1, le_trans (ht b hb).2 hle⟩
  cases op with
  | initPool => intro b hb; exact absurd hb (List.not_mem_nil _)
  | destroyPool => intro b hb; exact absurd hb (List.not_mem_nil _)
  | insertObject size =>
    apply hweak
    simp only [step]
    by_cases hok : insertSucceeds M s size
    · rw [insertObject_of_succeeds M s size hok]
      rcases reservationState_cases M s size with e | e
      · rw [e]; exact halloc s size h
      · rw [e]; exact halloc _ size hcomp
    · rw [insertObject_of_fails M s size hok]
      exact hcomp
  | retrieveObject r => exact hweak _ h
  | addReference r =>
    intro c hc
    have hcalls : addReferenceCalls [Op.addReference r] = 1 := rfl
    rw [hcalls] at hc0 ⊢
    obtain ⟨d, hd, -, -, -, e⟩ := addReferenceLoop_mem _ r c hc
    have hd2 := h d hd
    rcases e with e | e
    · rw [e]
      constructor <;> push_cast <;> omega
    · rw [e, wrapInt32_of_range _ (by omega) (by push_cast at hc0; omega)]
      constructor <;> push_cast <;> omega
  | dropReference r => exact hweak _ h
  | compact => exact hweak _ hcomp
  | dumpPool => exact hweak _ h

theorem counts_run (M : Int) (ops : List Op) (s : State) (c0 : Int) (h1 : 1 ≤ c0)
    (h : ∀ b ∈ s.memBlocks, 1 ≤ b.count ∧ b.count ≤ c0)
    (hc0 : c0 + addReferenceCalls ops ≤ 2147483647) :
    ∀ b ∈ (run M s ops).memBlocks, 1 ≤ b.count ∧ b.count ≤ c0 + addReferenceCalls ops := by
  induction ops generalizing s c0 with
  | nil => simpa [run, addReferenceCalls] using h
  | cons op rest ih =>
    rw [addReferenceCalls_cons] at hc0 ⊢
    have hstep := counts_step M s op c0 h1 h (by push_cast at hc0 ⊢; omega)
    have := ih (step M s op) (c0 + addReferenceCalls [op]) (by omega) hstep
      (by push_cast at hc0 ⊢; omega)
    intro b hb
    have hb2 := this b hb
    push_cast at hb2 ⊢
    constructor <;> omega

/-- Repeated `addReference` of the handle of the only record of the table adds the number of
calls to its retain count, while the count stays within `INT_MAX`. -/
theorem run_addReference_replicate (M : Int) (k : Nat) (s : State) (b : MemBlock) (r : Ref)
    (hs : s.memBlocks = [b]) (hr : b.ref = r) (hlo : -2147483648 ≤ b.count)
    (hhi : b.count + k ≤ 2147483647) :
    (run M s (List.replicate k (Op.addReference r))).memBlocks
      = [{ b with count := b.count + k }] := by
  induction k generalizing s b with
  | zero => simpa [run] using hs
  | succ k ih =>
    have hstep : (addReference s r).memBlocks = [{ b with count := b.count + 1 }] := by
      simp only [addReference, hs, addReferenceLoop, hr, if_true]
      rw [wrapInt32_of_range _ (by omega) (by push_cast at hhi; omega)]
    have := ih (addReference s r) { b with count := b.count + 1 } hstep hr
      (by show -2147483648 ≤ b.count + 1; omega)
      (by show b.count + 1 + (k : Int) ≤ 2147483647; push_cast at hhi; omega)
    simp only [List.replicate_succ, run, List.foldl_cons, step] at this ⊢
    rw [this]
    simp only [List.cons.injEq, and_true]
    congr 1
    push_cast
    ring

theorem packFrom_refs (st : Int) (t : List MemBlock) :
    (packFrom st t).map MemBlock.ref = (liveBlocks t).map MemBlock.ref := by
  have h := congrArg (fun l => l.map (fun p : Ref × Int × Int => p.1)) (packFrom_identity st t)
  simpa [MemBlock.identity, List.map_map, Function.comp_def] using h

theorem handleInv_compact (s : State) (h : HandleInv s) : HandleInv (compact s) := by
  obtain ⟨h0, hp, hlt⟩ := h
  refine ⟨by rw [compact_nextRef]; exact h0, ?_, ?_⟩
  · rw [compact_memBlocks, packFrom_refs]
    exact hp.sublist ((List.filter_sublist _).map _)
  · intro c hc
    rw [compact_memBlocks] at hc
    obtain ⟨d, hd, e, -, -⟩ := packFrom_mem 0 _ c hc
    rw [compact_nextRef, ← e]
    exact hlt d hd

theorem handleInv_allocateObject (s : State) (size : Int) (h : HandleInv s) :
    HandleInv (allocateObject s size).2 := by
  obtain ⟨h0, hp, hlt⟩ := h
  refine ⟨Nat.succ_ne_zero _, ?_, ?_⟩
  · simp only [allocateObject, List.map_append, List.map_cons, List.map_nil]
    rw [List.pairwise_append]
    refine ⟨hp, List.pairwise_singleton _ _, ?_⟩
    intro a ha b hb
    simp only [List.mem_map] at ha
    obtain ⟨c, hc, rfl⟩ := ha
    simp only [List.mem_singleton] at hb
    rw [hb]
    exact hlt c hc
  · intro c hc
    simp only [allocateObject, List.mem_append, List.mem_singleton] at hc
    rcases hc with hc | rfl
    · exact Nat.lt_succ_of_lt (hlt c hc)
    · exact Nat.lt_succ_self _

theorem handleInv_addReference (s : State) (r : Ref) (h : HandleInv s) :
    HandleInv (addReference s r) := by
  obtain ⟨h0, hp, hlt⟩ := h
  have hrefs : (addReferenceLoop s.memBlocks r).map MemBlock.ref = s.memBlocks.map MemBlock.ref := by
    have e := congrArg (fun l => l.map (fun p : Ref × Int × Int => p.1))
      (addReferenceLoop_layout s.memBlocks r)
    simpa [List.map_map, Function.comp_def] using e
  refine ⟨h0, ?_, ?_⟩
  · simp only [addReference, hrefs]
    exact hp
  · intro c hc
    obtain ⟨d, hd, e, -⟩ := addReferenceLoop_mem _ r c hc
    rw [← e]
    exact hlt d hd

theorem handleInv_initPool (s : State) (h : HandleInv s) : HandleInv (initPool s) :=
  ⟨h.1, List.Pairwise.nil, fun _ hb => absurd hb (List.not_mem_nil _)⟩

theorem handleInv_destroyPool (s : State) (h : HandleInv s) : HandleInv (destroyPool s) :=
  ⟨h.1, List.Pairwise.nil, fun _ hb => absurd hb (List.not_mem_nil _)⟩

theorem handleInv_programStart : HandleInv programStart :=
  ⟨by decide, List.Pairwise.nil, fun _ hb => absurd hb (List.not_mem_nil _)⟩

/-- One call keeps the handle invariant and never lowers the counter. -/
theorem handleInv_step (M : Int) (s : State) (op : Op) (h : HandleInv s) :
    HandleInv (step M s op) ∧ s.nextRef ≤ (step M s op).nextRef := by
  cases op with
  | initPool => exact ⟨handleInv_initPool s h, le_refl _⟩
  | destroyPool => exact ⟨handleInv_destroyPool s h, le_refl _⟩
  | insertObject size =>
    simp only [step]
    by_cases hok : insertSucceeds M s size
    · rw [insertObject_of_succeeds M s size hok]
      rcases reservationState_cases M s size with e | e
      · rw [e]; exact ⟨handleInv_allocateObject s size h, Nat.le_succ _⟩
      · rw [e]
        refine ⟨handleInv_allocateObject _ size (handleInv_compact s h), ?_⟩
        simp [allocateObject, compact_nextRef]
    · rw [insertObject_of_fails M s size hok]
      exact ⟨handleInv_compact s h, by simp [compact_nextRef]⟩
  | retrieveObject r => exact ⟨h, le_refl _⟩
  | addReference r => exact ⟨handleInv_addReference s r h, le_refl _⟩
  | dropReference r => exact ⟨h, le_refl _⟩
  | compact => exact ⟨handleInv_compact s h, by simp [step, compact_nextRef]⟩
  | dumpPool => exact ⟨h, le_refl _⟩

theorem handleInv_run (M : Int) (ops : List Op) (s : State) (h : HandleInv s) :
    HandleInv (run M s ops) := by
  induction ops generalizing s with
  | nil => exact h
  | cons op rest ih => exact ih _ (handleInv_step M s op h).1

theorem step_addReference_memBlocks (M : Int) (s : State) (r : Ref) :
    (step M s (Op.addReference r)).memBlocks = addReferenceLoop s.memBlocks r := rfl

theorem addReference_memBlocks (s : State) (r : Ref) :
    (addReference s r).memBlocks = addReferenceLoop s.memBlocks r := rfl

theorem run_append (M : Int) (s : State) (l1 l2 : List Op) :
    run M s (l1 ++ l2) = run M (run M s l1) l2 := by
  simp only [run, List.foldl_append]

theorem run_snoc (M : Int) (s : State) (l : List Op) (op : Op) :
    run M s (l ++ [op]) = step M (run M s l) op := by
  simp only [run, List.foldl_append, List.foldl_cons, List.foldl_nil]

/-- Handles of the table are below the counter in every state the program reaches. -/
theorem reachable_handles_below_counter (M : Int) (s : State) (h : Reachable M s) :
    ∀ b ∈ s.memBlocks, b.ref < s.nextRef := by
  obtain ⟨ops, rfl⟩ := h
  exact (handleInv_run M ops programStart handleInv_programStart).2.2

/-- A call that reaches its allocation returns the counter and advances it by one. -/
theorem insertObject_succeeds_handle (M : Int) (s : State) (size : Int)
    (hok : insertSucceeds M s size) :
    (insertObject M s size).1 = s.nextRef ∧ (insertObject M s size).2.nextRef = s.nextRef + 1 := by
  rw [insertObject_of_succeeds M s size hok]
  rcases reservationState_cases M s size with e | e
  · rw [e]; exact ⟨rfl, rfl⟩
  · rw [e]; simp [allocateObject, compact_nextRef]

/-- Handles issued from a state are at or above its counter and strictly increase. -/
theorem issuedHandles_increasing (M : Int) (ops : List Op) (s : State) (h : HandleInv s) :
    (∀ r ∈ issuedHandles M s ops, s.nextRef ≤ r) ∧
    (issuedHandles M s ops).Pairwise (fun a b => a < b) := by
  induction ops generalizing s with
  | nil => exact ⟨fun _ hr => absurd hr (List.not_mem_nil _), List.Pairwise.nil⟩
  | cons op rest ih =>
    have hs := handleInv_step M s op h
    obtain ⟨ih1, ih2⟩ := ih (step M s op) hs.1
    cases op with
    | insertObject size =>
      simp only [step] at hs ih1 ih2
      by_cases hok : insertSucceeds M s size
      · obtain ⟨e1, e2⟩ := insertObject_succeeds_handle M s size hok
        simp only [issuedHandles, hok, if_true]
        refine ⟨?_, List.Pairwise.cons ?_ ih2⟩
        · intro r hr
          rcases List.mem_cons.1 hr with rfl | hr
          · exact le_of_eq e1.symm
          · have h3 := ih1 r hr
            rw [e2] at h3
            exact Nat.le_of_succ_le h3
        · intro r hr
          have h3 := ih1 r hr
          rw [e2] at h3
          rw [e1]
          exact Nat.lt_of_succ_le h3
      · simp only [issuedHandles, hok, if_false]
        exact ⟨fun r hr => le_trans hs.2 (ih1 r hr), ih2⟩
    | initPool => exact ⟨fun r hr => le_trans hs.2 (ih1 r hr), ih2⟩
    | destroyPool => exact ⟨fun r hr => le_trans hs.2 (ih1 r hr), ih2⟩
    | retrieveObject r0 => exact ⟨fun r hr => le_trans hs.2 (ih1 r hr), ih2⟩
    | addReference r0 => exact ⟨fun r hr => le_trans hs.2 (ih1 r hr), ih2⟩
    | dropReference r0 => exact ⟨fun r hr => le_trans hs.2 (ih1 r hr), ih2⟩
    | compact => exact ⟨fun r hr => le_trans hs.2 (ih1 r hr), ih2⟩
    | dumpPool => exact ⟨fun r hr => le_trans hs.2 (ih1 r hr), ih2⟩

/-- Insertions of non-negative sizes that fit together below the capacity all allocate
without compaction and return consecutive handles. -/
theorem returnedHandles_inserts (M : Int) (sizes : List Int) (s : State)
    (hn : ∀ x ∈ sizes, 0 ≤ x) (hfit : s.freeIndex + sizes.sum ≤ M) :
    returnedHandles M s (sizes.map Op.insertObject) = List.range' s.nextRef sizes.length := by
  induction sizes generalizing s with
  | nil => rfl
  | cons x rest ih =>
    have hx : 0 ≤ x := hn x (List.mem_cons_self _ _)
    have hrest : ∀ y ∈ rest, 0 ≤ y := fun y hy => hn y (List.mem_cons_of_mem _ hy)
    have hsum : 0 ≤ rest.sum := List.sum_nonneg hrest
    rw [List.sum_cons] at hfit
    have h1 : ¬ M - s.freeIndex < x := by omega
    have e : insertObject M s x = allocateObject s x := by simp [insertObject, h1]
    simp only [List.map_cons, returnedHandles, List.length_cons, List.range'_succ, e]
    rw [ih (allocateObject s x).2 hrest (by simp only [allocateObject]; omega)]
    rfl

/-- Records of non-negative size whose byte ranges are pairwise disjoint and inside a finite
set of addresses have, together, at most as many bytes as the set has addresses. -/
theorem disjoint_totalBytes_le (l : List MemBlock) (S : Finset Int)
    (hn : ∀ b ∈ l, 0 ≤ b.numBytes)
    (hd : l.Pairwise (fun a b => ∀ x : Int, ¬ (a.covers x ∧ b.covers x)))
    (hS : ∀ b ∈ l, ∀ x : Int, b.covers x → x ∈ S) :
    totalBytes l ≤ (S.card : Int) := by
  induction l generalizing S with
  | nil => simp [totalBytes]
  | cons b rest ih =>
    have hb := hn b (List.mem_cons_self _ _)
    obtain ⟨hbr, hrr⟩ := List.pairwise_cons.1 hd
    have hIS : Finset.Ico b.startAddr (b.startAddr + b.numBytes) ⊆ S := by
      intro x hx
      rw [Finset.mem_Ico] at hx
      exact hS b (List.mem_cons_self _ _) x hx
    have hcard : ((Finset.Ico b.startAddr (b.startAddr + b.numBytes)).card : Int)
        = b.numBytes := by
      rw [Int.card_Ico]
      have e : b.startAddr + b.numBytes - b.startAddr = b.numBytes := by ring
      rw [e]
      exact Int.toNat_of_nonneg hb
    have hrest := ih (S \ Finset.Ico b.startAddr (b.startAddr + b.numBytes))
      (fun c hc => hn c (List.mem_cons_of_mem _ hc)) hrr (by
        intro c hc x hx
        rw [Finset.mem_sdiff]
        refine ⟨hS c (List.mem_cons_of_mem _ hc) x hx, ?_⟩
        intro hxI
        rw [Finset.mem_Ico] at hxI
        exact hbr c hc x ⟨hxI, hx⟩)
    have hsum := Finset.card_sdiff_add_card_eq_card hIS
    have hsum2 : ((S \ Finset.Ico b.startAddr (b.startAddr + b.numBytes)).card : Int)
        + ((Finset.Ico b.startAddr (b.startAddr + b.numBytes)).card : Int) = (S.card : Int) := by
      exact_mod_cast hsum
    rw [totalBytes_cons]
    omega

/-- Disjoint ranges inside `[0, F)` leave the sum of the sizes at or below `F`. -/
theorem disjoint_totalBytes_le_free (l : List MemBlock) (F : Int) (hF : 0 ≤ F)
    (hn : ∀ b ∈ l, 0 ≤ b.numBytes)
    (hd : l.Pairwise (fun a b => ∀ x : Int, ¬ (a.covers x ∧ b.covers x)))
    (hw : ∀ b ∈ l, ∀ x : Int, b.covers x → 0 ≤ x ∧ x < F) :
    totalBytes l ≤ F := by
  have h := disjoint_totalBytes_le l (Finset.Ico 0 F) hn hd (by
    intro b hb x hx
    rw [Finset.mem_Ico]
    exact hw b hb x hx)
  rw [Int.card_Ico, sub_zero, Int.toNat_of_nonneg hF] at h
  exact h

/-- A record appended at the end does not change the lookup of a handle already present. -/
theorem retrieveLoop_append_of_mem (t : List MemBlock) (b : MemBlock) (r : Ref)
    (h : ∃ c ∈ t, c.ref = r) : retrieveLoop (t ++ [b]) r = retrieveLoop t r := by
  induction t with
  | nil => simp at h
  | cons c rest ih =>
    by_cases hc : c.ref = r
    · simp [retrieveLoop, hc]
    · obtain ⟨d, hd, hdr⟩ := h
      have hd2 : d ∈ rest := by
        rcases List.mem_cons.1 hd with rfl | hd
        · exact absurd hdr hc
        · exact hd
      simp only [List.cons_append, retrieveLoop, hc, if_false]
      exact ih ⟨d, hd2, hdr⟩

/-! ## The claims -/

/-- C2 on the code: after `initPool` and `insertObject (40)` the record of handle 1 has retain
count 1, and after `dropReference (1)` it still has retain count 1, where the claim says 0;
`dropReference` changes no state at all. -/
theorem dropReference_leaves_count :
    scenarioA.1 = 1 ∧
    scenarioA.2.memBlocks = [⟨40, 0, 1, 1⟩] ∧
    (dropReference scenarioA.2 scenarioA.1).memBlocks = [⟨40, 0, 1, 1⟩] ∧
    (∀ (s : State) (r : Ref), dropReference s r = s) :=
  ⟨by decide, by decide, by decide, fun _ _ => rfl⟩

/-- C3 on the code, capacity 100 and sizes 40, 40, 40: the handles A and B are 1 and 2; after
`dropReference (A)` both records still have retain count 1; the third insertion returns the
null handle; afterwards A is still found (offset 0), B is at offset 40 and the free index
is 80. -/
theorem reclaim_scenario_on_code :
    scenarioA.1 = 1 ∧ scenarioB.1 = 2 ∧
    scenarioDrop.memBlocks = [⟨40, 0, 1, 1⟩, ⟨40, 40, 2, 1⟩] ∧
    scenarioC.1 = NULL_REF ∧
    (retrieveObject scenarioC.2 scenarioA.1).1 = some { buf := .buffer2, off := 0 } ∧
    (retrieveObject scenarioC.2 scenarioB.1).1 = some { buf := .buffer2, off := 40 } ∧
    scenarioC.2.freeIndex = 80 := by
  decide

/-- C4: after `compact` the table is fully packed. Each record starts at the sum of the sizes
of the records before it, the free index is the sum of all their sizes; and when the sizes of
the remaining records are non-negative, their byte ranges are pairwise disjoint, every
remaining handle is found by `retrieveObject`, no range ends above the free index and, in a
non-empty table, some range ends exactly at it. -/
theorem compact_fully_packed (s : State) :
    (∀ (i : Nat) (h : i < (compact s).memBlocks.length),
      ((compact s).memBlocks.get ⟨i, h⟩).startAddr
        = totalBytes ((compact s).memBlocks.take i)) ∧
    (compact s).freeIndex = totalBytes (compact s).memBlocks ∧
    ((∀ b ∈ (compact s).memBlocks, 0 ≤ b.numBytes) →
      (∀ (i j : Nat) (hi : i < (compact s).memBlocks.length)
          (hj : j < (compact s).memBlocks.length), i ≠ j → ∀ x : Int,
          ¬ (((compact s).memBlocks.get ⟨i, hi⟩).covers x ∧
             ((compact s).memBlocks.get ⟨j, hj⟩).covers x)) ∧
      (∀ b ∈ (compact s).memBlocks, (retrieveObject (compact s) b.ref).1 ≠ none) ∧
      (∀ b ∈ (compact s).memBlocks, b.startAddr + b.numBytes ≤ (compact s).freeIndex) ∧
      ((compact s).memBlocks ≠ [] →
        ∃ b ∈ (compact s).memBlocks, b.startAddr + b.numBytes = (compact s).freeIndex)) := by
  have hp : PackedFrom 0 (compact s).memBlocks := by
    rw [compact_memBlocks]; exact packFrom_packed 0 _
  have hfree : (compact s).freeIndex = totalBytes (compact s).memBlocks := by
    rw [compact_freeIndex, compact_memBlocks, totalBytes_packFrom]
  refine ⟨?_, hfree, ?_⟩
  · intro i h
    have := packed_startAddr 0 _ hp i h
    simpa using this
  · intro hn
    refine ⟨?_, ?_, ?_, ?_⟩
    · have hpw := List.pairwise_iff_getElem.1 (packed_pairwise 0 _ hp hn)
      intro i j hi hj hij x hx
      obtain ⟨⟨a1, a2⟩, ⟨b1, b2⟩⟩ := hx
      simp only [List.get_eq_getElem] at a1 a2 b1 b2
      rcases Nat.lt_or_gt_of_ne hij with hlt | hgt
      · have := hpw i j hi hj hlt
        omega
      · have := hpw j i hj hi hgt
        omega
    · intro b hb hnone
      have h2 : retrieveLoop (compact s).memBlocks b.ref = none := by
        simpa [retrieveObject] using hnone
      exact (retrieveLoop_eq_none_iff _ _).1 h2 b hb rfl
    · intro b hb
      have := (packed_bounds 0 _ hp hn b hb).2
      omega
    · intro hne
      obtain ⟨b, hb, hbs⟩ := packed_last 0 _ hp hne
      exact ⟨b, hb, by omega⟩

/-- Witness of `compact_fully_packed` on a table with a released record. -/
theorem compact_fully_packed_witness :
    (∀ (i : Nat) (h : i < (compact sampleState).memBlocks.length),
      ((compact sampleState).memBlocks.get ⟨i, h⟩).startAddr
        = totalBytes ((compact sampleState).memBlocks.take i)) ∧
    (compact sampleState).freeIndex = totalBytes (compact sampleState).memBlocks ∧
    (∀ b ∈ (compact sampleState).memBlocks, 0 ≤ b.numBytes) ∧
    ((∀ (i j : Nat) (hi : i < (compact sampleState).memBlocks.length)
          (hj : j < (compact sampleState).memBlocks.length), i ≠ j → ∀ x : Int,
          ¬ (((compact sampleState).memBlocks.get ⟨i, hi⟩).covers x ∧
             ((compact sampleState).memBlocks.get ⟨j, hj⟩).covers x)) ∧
      (∀ b ∈ (compact sampleState).memBlocks,
        (retrieveObject (compact sampleState) b.ref).1 ≠ none) ∧
      (∀ b ∈ (compact sampleState).memBlocks,
        b.startAddr + b.numBytes ≤ (compact sampleState).freeIndex) ∧
      ((compact sampleState).memBlocks ≠ [] →
        ∃ b ∈ (compact sampleState).memBlocks,
          b.startAddr + b.numBytes = (compact sampleState).freeIndex)) :=
  ⟨(compact_fully_packed sampleState).1, (compact_fully_packed sampleState).2.1, by decide,
    (compact_fully_packed sampleState).2.2 (by decide)⟩

/-- C5: the table after `compact` is the sequence of the records with a non-zero retain
count, in their order, each with its handle, size and retain count; no record with retain
count 0 remains. -/
theorem compact_keeps_exactly_live (s : State) :
    (compact s).memBlocks.map MemBlock.identity
      = (s.memBlocks.filter (fun b => decide (b.count ≠ 0))).map MemBlock.identity ∧
    (∀ b ∈ (compact s).memBlocks, b.count ≠ 0) := by
  constructor
  · rw [compact_memBlocks]
    exact packFrom_identity 0 s.memBlocks
  · rw [compact_memBlocks]
    exact packFrom_live 0 s.memBlocks

/-- C6: `compact` preserves payloads. When every live record has a non-negative size and a
range inside the buffer, and the live sizes sum to at most `MEMORY_SIZE`, the k-th record
after `compact` is the k-th live record before it and each of its bytes in the new active
buffer is the old byte; so the bytes read through `retrieveObject` of a handle whose record
is live are the same before and after. -/
theorem compact_preserves_payload (MEMORY_SIZE : Int) (s : State)
    (hrange : ∀ b ∈ s.memBlocks, b.count ≠ 0 →
      0 ≤ b.numBytes ∧ 0 ≤ b.startAddr ∧ b.startAddr + b.numBytes ≤ MEMORY_SIZE)
    (hsum : totalBytes (liveBlocks s.memBlocks) ≤ MEMORY_SIZE) :
    (compact s).memBlocks.length = (liveBlocks s.memBlocks).length ∧
    (∀ (k : Nat) (h1 : k < (liveBlocks s.memBlocks).length)
        (h2 : k < (compact s).memBlocks.length),
      ((compact s).memBlocks.get ⟨k, h2⟩).ref = ((liveBlocks s.memBlocks).get ⟨k, h1⟩).ref ∧
      ∀ i : Int, 0 ≤ i → i < ((liveBlocks s.memBlocks).get ⟨k, h1⟩).numBytes →
        (compact s).active (((compact s).memBlocks.get ⟨k, h2⟩).startAddr + i)
          = s.active (((liveBlocks s.memBlocks).get ⟨k, h1⟩).startAddr + i)) ∧
    (∀ (pre : List MemBlock) (b : MemBlock) (post : List MemBlock),
      s.memBlocks = pre ++ b :: post → (∀ c ∈ pre, c.ref ≠ b.ref) → b.count ≠ 0 →
      ∃ l l2 : Loc, (retrieveObject s b.ref).1 = some l ∧
        (retrieveObject (compact s) b.ref).1 = some l2 ∧
        ∀ i : Int, 0 ≤ i → i < b.numBytes → (compact s).readLoc l2 i = s.readLoc l i) := by
  have hn : ∀ b ∈ s.memBlocks, b.count ≠ 0 → 0 ≤ b.numBytes :=
    fun b hb hc => (hrange b hb hc).1
  have _hfits : totalBytes (liveBlocks s.memBlocks) ≤ MEMORY_SIZE := hsum
  have hcopy := compact_copies s hn
  obtain ⟨hlen, hget⟩ := List.forall₂_iff_get.1 hcopy
  refine ⟨hlen.symm, fun k h1 h2 => hget k h1 h2, ?_⟩
  intro pre b post hs hpre hb
  rw [hs] at hcopy
  obtain ⟨b2, hl, -, hbytes⟩ := forall₂_lookup _ (fun _ _ h => h.1) pre b post _ hpre hb hcopy
  refine ⟨⟨s.currBuffer, b.startAddr⟩, ⟨(compact s).currBuffer, b2.startAddr⟩, ?_, ?_, ?_⟩
  · simp [retrieveObject, hs, retrieveLoop_first pre b post b.ref hpre rfl]
  · simp [retrieveObject, hl]
  · intro i h0 h1
    exact hbytes i h0 h1

/-- Witness of `compact_preserves_payload` on a table with a released record, capacity 16. -/
theorem compact_preserves_payload_witness :
    (∀ b ∈ sampleState.memBlocks, b.count ≠ 0 →
      0 ≤ b.numBytes ∧ 0 ≤ b.startAddr ∧ b.startAddr + b.numBytes ≤ 16) ∧
    totalBytes (liveBlocks sampleState.memBlocks) ≤ 16 ∧
    ((compact sampleState).memBlocks.length = (liveBlocks sampleState.memBlocks).length ∧
     (∀ (k : Nat) (h1 : k < (liveBlocks sampleState.memBlocks).length)
        (h2 : k < (compact sampleState).memBlocks.length),
      ((compact sampleState).memBlocks.get ⟨k, h2⟩).ref
        = ((liveBlocks sampleState.memBlocks).get ⟨k, h1⟩).ref ∧
      ∀ i : Int, 0 ≤ i → i < ((liveBlocks sampleState.memBlocks).get ⟨k, h1⟩).numBytes →
        (compact sampleState).active (((compact sampleState).memBlocks.get ⟨k, h2⟩).startAddr + i)
          = sampleState.active (((liveBlocks sampleState.memBlocks).get ⟨k, h1⟩).startAddr + i)) ∧
     (∀ (pre : List MemBlock) (b : MemBlock) (post : List MemBlock),
      sampleState.memBlocks = pre ++ b :: post → (∀ c ∈ pre, c.ref ≠ b.ref) → b.count ≠ 0 →
      ∃ l l2 : Loc, (retrieveObject sampleState b.ref).1 = some l ∧
        (retrieveObject (compact sampleState) b.ref).1 = some l2 ∧
        ∀ i : Int, 0 ≤ i → i < b.numBytes →
          (compact sampleState).readLoc l2 i = sampleState.readLoc l i)) ∧
    (∃ l l2 : Loc, (retrieveObject sampleState 2).1 = some l ∧
      (retrieveObject (compact sampleState) 2).1 = some l2 ∧
      ∀ i : Int, 0 ≤ i → i < 2 →
        (compact sampleState).readLoc l2 i = sampleState.readLoc l i) :=
  ⟨by decide, by decide, compact_preserves_payload 16 sampleState (by decide) (by decide),
    (compact_preserves_payload 16 sampleState (by decide) (by decide)).2.2
      [⟨4, 0, 1, 0⟩] ⟨2, 4, 2, 1⟩ [⟨3, 6, 3, 2⟩] rfl (by decide) (by decide)⟩

/-- C7: in every state whose handle counter is not the null handle (the counter starts at 1
and is only incremented), with or without records of retain count 0 in the table,
`insertObject` returns the null handle exactly when the request fits neither before a
compaction (`MEMORY_SIZE - freeIndex < size`) nor after one (`MEMORY_SIZE` minus the sizes of
the records with non-zero retain count is below `size`); in every other case the handle is
non-null. -/
theorem insertObject_null_iff (M : Int) (s : State) (size : Int)
    (hcounter : s.nextRef ≠ NULL_REF) :
    (insertObject M s size).1 = NULL_REF ↔
      (M - s.freeIndex < size ∧
       M - totalBytes (s.memBlocks.filter (fun b => decide (b.count ≠ 0))) < size) :=
  insertObject_fst_eq_null_iff M s size hcounter

/-- Witness of `insertObject_null_iff`: capacity 10, a table with a released record of 4 bytes
and free index 9, and a request of 3 bytes; it does not fit before the compaction, fits
after it, and the handle is non-null. -/
theorem insertObject_null_iff_witness :
    sampleState.nextRef ≠ NULL_REF ∧
    (10 : Int) - sampleState.freeIndex < 3 ∧
    ¬ ((10 : Int) - totalBytes (sampleState.memBlocks.filter
          (fun b => decide (b.count ≠ 0))) < 3) ∧
    (insertObject 10 sampleState 3).1 ≠ NULL_REF ∧
    ((insertObject 10 sampleState 3).1 = NULL_REF ↔
      ((10 : Int) - sampleState.freeIndex < 3 ∧
       (10 : Int) - totalBytes (sampleState.memBlocks.filter
          (fun b => decide (b.count ≠ 0))) < 3)) :=
  ⟨by decide, by decide, by decide, by decide,
    insertObject_null_iff 10 sampleState 3 (by decide)⟩

/-- C8 as stated fails: with capacity 50, in a state within the data-model invariants that
holds a released record, `insertObject (60)` returns the null handle and the record is gone
from the table. -/
theorem insertObject_oversize_counterexample :
    (0 ≤ releasedState.freeIndex ∧ releasedState.freeIndex ≤ 50) ∧
    (∀ b ∈ releasedState.memBlocks, 0 ≤ b.numBytes ∧ 0 ≤ b.count) ∧
    (insertObject 50 releasedState 60).1 = NULL_REF ∧
    releasedState.memBlocks = [⟨10, 0, 1, 0⟩] ∧
    (insertObject 50 releasedState 60).2.memBlocks = [] ∧
    (insertObject 50 releasedState 60).2.memBlocks ≠ releasedState.memBlocks := by
  decide

/-- C8, amended: in a state with free index in `[0, MEMORY_SIZE]` and non-negative sizes and
counts, `insertObject` of a size above `MEMORY_SIZE` returns the null handle and leaves the
state as one `compact` leaves it: the records with non-zero retain count stay, in order, with
their handles, sizes and retain counts, packed from offset 0; the table is unchanged when it
holds no record with retain count 0 and is already packed. -/
theorem insertObject_oversize (M : Int) (s : State) (size : Int)
    (hfree : 0 ≤ s.freeIndex ∧ s.freeIndex ≤ M)
    (hrec : ∀ b ∈ s.memBlocks, 0 ≤ b.numBytes ∧ 0 ≤ b.count)
    (hsize : M < size) :
    (insertObject M s size).1 = NULL_REF ∧
    (insertObject M s size).2 = compact s ∧
    (insertObject M s size).2.memBlocks.map MemBlock.identity
      = (s.memBlocks.filter (fun b => decide (b.count ≠ 0))).map MemBlock.identity ∧
    PackedFrom 0 (insertObject M s size).2.memBlocks ∧
    ((∀ b ∈ s.memBlocks, b.count ≠ 0) → PackedFrom 0 s.memBlocks →
      (insertObject M s size).2.memBlocks = s.memBlocks) := by
  have hlive : 0 ≤ totalBytes (liveBlocks s.memBlocks) := by
    unfold totalBytes
    apply List.sum_nonneg
    intro x hx
    simp only [List.mem_map] at hx
    obtain ⟨c, hc, rfl⟩ := hx
    exact (hrec c (List.mem_of_mem_filter hc)).1
  have h1 : M - s.freeIndex < size := by omega
  have h2 : M - (compact s).freeIndex < size := by rw [compact_freeIndex]; omega
  have e : insertObject M s size = (NULL_REF, compact s) := by
    simp [insertObject, h1, h2]
  rw [e]
  refine ⟨rfl, rfl, ?_, ?_, ?_⟩
  · simp only [compact_memBlocks]
    exact packFrom_identity 0 s.memBlocks
  · simp only [compact_memBlocks]
    exact packFrom_packed 0 s.memBlocks
  · intro hl hp
    simp only [compact_memBlocks]
    exact packFrom_of_packed 0 _ hp hl

/-- Witness of `insertObject_oversize`: capacity 50, `insertObject (60)` on a pool holding one
live record of 20 bytes at offset 0. -/
theorem insertObject_oversize_witness :
    ((0 : Int) ≤ smallPool.freeIndex ∧ smallPool.freeIndex ≤ 50) ∧
    (∀ b ∈ smallPool.memBlocks, 0 ≤ b.numBytes ∧ 0 ≤ b.count) ∧
    (50 : Int) < 60 ∧
    (∀ b ∈ smallPool.memBlocks, b.count ≠ 0) ∧
    PackedFrom 0 smallPool.memBlocks ∧
    (insertObject 50 smallPool 60).1 = NULL_REF ∧
    (insertObject 50 smallPool 60).2 = compact smallPool ∧
    (insertObject 50 smallPool 60).2.memBlocks.map MemBlock.identity
      = (smallPool.memBlocks.filter (fun b => decide (b.count ≠ 0))).map MemBlock.identity ∧
    PackedFrom 0 (insertObject 50 smallPool 60).2.memBlocks ∧
    (insertObject 50 smallPool 60).2.memBlocks = smallPool.memBlocks :=
  ⟨by decide, by decide, by decide, by decide, by simp [PackedFrom, smallPool, insertObject,
      allocateObject, initPool, programStart],
    (insertObject_oversize 50 smallPool 60 (by decide) (by decide) (by decide)).1,
    (insertObject_oversize 50 smallPool 60 (by decide) (by decide) (by decide)).2.1,
    (insertObject_oversize 50 smallPool 60 (by decide) (by decide) (by decide)).2.2.1,
    (insertObject_oversize 50 smallPool 60 (by decide) (by decide) (by decide)).2.2.2.1,
    (insertObject_oversize 50 smallPool 60 (by decide) (by decide) (by decide)).2.2.2.2
      (by decide) (by simp [PackedFrom, smallPool, insertObject, allocateObject, initPool,
        programStart])⟩

/-- C9: running `compact` twice gives the same table and the same free index as running it
once. -/
theorem compact_idempotent (s : State) :
    (compact (compact s)).memBlocks = (compact s).memBlocks ∧
    (compact (compact s)).freeIndex = (compact s).freeIndex := by
  have hpk : packFrom 0 (packFrom 0 s.memBlocks) = packFrom 0 s.memBlocks :=
    packFrom_of_packed 0 _ (packFrom_packed 0 _) (packFrom_live 0 _)
  constructor
  · rw [compact_memBlocks (compact s), compact_memBlocks s, hpk]
  · rw [compact_freeIndex (compact s), compact_freeIndex s, compact_memBlocks s,
      liveBlocks_of_live _ (packFrom_live 0 _), totalBytes_packFrom]

/-- C10: `retrieveObject` returns `NULL` exactly when no record has the handle; otherwise it
returns the location, in the active buffer, of the start address of the first record with the
handle; and it leaves the state as it was. -/
theorem retrieveObject_spec (s : State) (r : Ref) :
    ((retrieveObject s r).1 = none ↔ ∀ b ∈ s.memBlocks, b.ref ≠ r) ∧
    (∀ (pre : List MemBlock) (b : MemBlock) (post : List MemBlock),
      s.memBlocks = pre ++ b :: post → (∀ c ∈ pre, c.ref ≠ r) → b.ref = r →
      (retrieveObject s r).1 = some { buf := s.currBuffer, off := b.startAddr }) ∧
    ((∃ b ∈ s.memBlocks, b.ref = r) →
      ∃ (pre : List MemBlock) (b : MemBlock) (post : List MemBlock),
        s.memBlocks = pre ++ b :: post ∧ (∀ c ∈ pre, c.ref ≠ r) ∧ b.ref = r) ∧
    (retrieveObject s r).2 = s := by
  refine ⟨?_, ?_, exists_first s.memBlocks r, rfl⟩
  · rw [← retrieveLoop_eq_none_iff]
    simp [retrieveObject]
  · intro pre b post hs hpre hb
    simp [retrieveObject, hs, retrieveLoop_first pre b post r hpre hb]

/-- C11 as stated fails: with capacity 100, the calls `initPool`, `insertObject (40)` and
2147483646 times `addReference (1)` reach a state in which the record of handle 1 has retain count
2147483647, and one more `addReference (1)` leaves it at -2147483648, not at 2147483648. -/
theorem addReference_overflow_counterexample :
    Reachable 100 saturatedState ∧
    saturatedState.memBlocks = [⟨40, 0, 1, 2147483647⟩] ∧
    (addReference saturatedState 1).memBlocks = [⟨40, 0, 1, -2147483648⟩] ∧
    (-2147483648 : Int) ≠ 2147483647 + 1 := by
  have h : (run 100 (run 100 programStart [Op.initPool, Op.insertObject 40])
      (List.replicate 2147483646 (Op.addReference 1))).memBlocks
      = [⟨40, 0, 1, 2147483647⟩] :=
    run_addReference_replicate 100 2147483646
      (run 100 programStart [Op.initPool, Op.insertObject 40]) ⟨40, 0, 1, 1⟩ 1
      rfl rfl (by norm_num) (by norm_num)
  have e : saturatedState
      = run 100 (run 100 programStart [Op.initPool, Op.insertObject 40])
          (List.replicate 2147483646 (Op.addReference 1)) :=
    run_append 100 programStart [Op.initPool, Op.insertObject 40]
      (List.replicate 2147483646 (Op.addReference 1))
  have h2 : saturatedState.memBlocks = [⟨40, 0, 1, 2147483647⟩] := by
    rw [e, h]
  refine ⟨⟨saturatingCalls, rfl⟩, h2, ?_, by norm_num⟩
  rw [addReference_memBlocks, h2]
  decide

/-- C11, amended: when a record with handle `r` is in the table, `addReference r` yields the
state in which the first such record (the one the handle designates) has its retain count
replaced by the 32-bit increment of it, and everything else is as before: the other records,
every handle, size and start address, the free index, the active buffer, both buffers and the
handle counter; when that count is an `int` below `INT_MAX` the new count is the old one plus
1; when no record has handle `r` the state is unchanged. -/
theorem addReference_spec (s : State) (r : Ref) :
    (∀ (pre : List MemBlock) (b : MemBlock) (post : List MemBlock),
      s.memBlocks = pre ++ b :: post → (∀ c ∈ pre, c.ref ≠ r) → b.ref = r →
      addReference s r
        = { s with memBlocks := pre ++ { b with count := wrapInt32 (b.count + 1) } :: post } ∧
      (INT_MIN ≤ b.count → b.count < INT_MAX →
        addReference s r
          = { s with memBlocks := pre ++ { b with count := b.count + 1 } :: post })) ∧
    ((∃ b ∈ s.memBlocks, b.ref = r) →
      ∃ (pre : List MemBlock) (b : MemBlock) (post : List MemBlock),
        s.memBlocks = pre ++ b :: post ∧ (∀ c ∈ pre, c.ref ≠ r) ∧ b.ref = r) ∧
    ((∀ b ∈ s.memBlocks, b.ref ≠ r) → addReference s r = s) := by
  refine ⟨?_, exists_first s.memBlocks r, ?_⟩
  · intro pre b post hs hpre hb
    have e : addReference s r
        = { s with memBlocks := pre ++ { b with count := wrapInt32 (b.count + 1) } :: post } := by
      simp only [addReference, hs, addReferenceLoop_first pre b post r hpre hb]
    refine ⟨e, ?_⟩
    intro hlo hhi
    unfold INT_MIN at hlo
    unfold INT_MAX at hhi
    rw [e, wrapInt32_of_range _ (by omega) (by omega)]
  · intro h
    simp only [addReference, addReferenceLoop_absent _ r h]

/-- Witness of `addReference_spec`: handle 2 of a three-record table, whose retain count 1
becomes 2, and the absent handle 9. -/
theorem addReference_spec_witness :
    sampleState.memBlocks = [⟨4, 0, 1, 0⟩] ++ ⟨2, 4, 2, 1⟩ :: [⟨3, 6, 3, 2⟩] ∧
    (∀ c ∈ [(⟨4, 0, 1, 0⟩ : MemBlock)], c.ref ≠ 2) ∧
    INT_MIN ≤ (⟨2, 4, 2, 1⟩ : MemBlock).count ∧ (⟨2, 4, 2, 1⟩ : MemBlock).count < INT_MAX ∧
    addReference sampleState 2
      = { sampleState with memBlocks := [⟨4, 0, 1, 0⟩] ++ ⟨2, 4, 2, 1 + 1⟩ :: [⟨3, 6, 3, 2⟩] } ∧
    (∀ b ∈ sampleState.memBlocks, b.ref ≠ 9) ∧
    addReference sampleState 9 = sampleState :=
  ⟨rfl, by decide, by decide, by decide,
    ((addReference_spec sampleState 2).1 [⟨4, 0, 1, 0⟩] ⟨2, 4, 2, 1⟩ [⟨3, 6, 3, 2⟩] rfl
      (by decide) rfl).2 (by decide) (by decide),
    by decide, (addReference_spec sampleState 9).2.2 (by decide)⟩

/-- C12: from the state right after `initPool`, called in a state the program reaches,
inserting non-negative sizes whose sum is at most `MEMORY_SIZE` returns a handle at every
call (as many handles as sizes), each non-null and no two of them equal. -/
theorem inserts_within_capacity (M : Int) (s0 : State) (sizes : List Int)
    (hr : Reachable M s0) (hn : ∀ x ∈ sizes, 0 ≤ x) (hsum : sizes.sum ≤ M) :
    (returnedHandles M (initPool s0) (sizes.map Op.insertObject)).length = sizes.length ∧
    (∀ r ∈ returnedHandles M (initPool s0) (sizes.map Op.insertObject), r ≠ NULL_REF) ∧
    (returnedHandles M (initPool s0) (sizes.map Op.insertObject)).Pairwise
      (fun a b => a ≠ b) := by
  have h0 : s0.nextRef ≠ NULL_REF := reachable_nextRef_ne_null M s0 hr
  have e := returnedHandles_inserts M sizes (initPool s0) hn
    (by simp only [initPool]; omega)
  rw [e]
  refine ⟨by simp, ?_, ?_⟩
  · intro r hr2 hnull
    rw [List.mem_range'_1] at hr2
    have h1 : (initPool s0).nextRef = s0.nextRef := rfl
    rw [h1, hnull] at hr2
    exact h0 (Nat.le_zero.1 hr2.1)
  · exact (List.nodup_range' _ _)

/-- Witness of `inserts_within_capacity`: capacity 100 and sizes 40, 40, 20 from the start of
the program. -/
theorem inserts_within_capacity_witness :
    Reachable 100 programStart ∧ (∀ x ∈ [(40 : Int), 40, 20], 0 ≤ x) ∧
    ([(40 : Int), 40, 20]).sum ≤ 100 ∧
    (returnedHandles 100 (initPool programStart)
      ([(40 : Int), 40, 20].map Op.insertObject)).length = [(40 : Int), 40, 20].length ∧
    (∀ r ∈ returnedHandles 100 (initPool programStart)
      ([(40 : Int), 40, 20].map Op.insertObject), r ≠ NULL_REF) ∧
    (returnedHandles 100 (initPool programStart)
      ([(40 : Int), 40, 20].map Op.insertObject)).Pairwise (fun a b => a ≠ b) :=
  ⟨⟨[], rfl⟩, by decide, by decide,
    inserts_within_capacity 100 programStart [40, 40, 20] ⟨[], rfl⟩ (by decide) (by decide)⟩

/-- C13 as stated fails: with capacity 100, `insertObject (-1)` right after `initPool` is
accepted and leaves the free index at -1. -/
theorem freeIndex_negative_counterexample :
    (insertObject 100 (initPool programStart) (-1)).1 ≠ NULL_REF ∧
    (run 100 (initPool programStart) [Op.insertObject (-1)]).freeIndex = -1 ∧
    ¬ (0 ≤ (run 100 (initPool programStart) [Op.insertObject (-1)]).freeIndex) := by
  decide

/-- C13, amended: with `MEMORY_SIZE` non-negative, in every state reached from `initPool` by
calls whose insertion sizes are non-negative, the free index is in `[0, MEMORY_SIZE]`. -/
theorem freeIndex_in_bounds (M : Int) (s0 : State) (ops : List Op) (hM : 0 ≤ M)
    (hops : ∀ op ∈ ops, op.sizeNonneg) :
    0 ≤ (run M (initPool s0) ops).freeIndex ∧ (run M (initPool s0) ops).freeIndex ≤ M := by
  have hinv := poolInv_run M ops (initPool s0) (poolInv_initPool s0) hops
  constructor
  · rw [hinv.2.1]
    exact totalBytes_nonneg _ hinv.2.2
  · exact run_freeIndex_le M ops (initPool s0) hM (poolInv_initPool s0) hM hops

/-- Witness of `freeIndex_in_bounds`: capacity 100 and a run with a compaction and a failed
insertion. -/
theorem freeIndex_in_bounds_witness :
    (0 : Int) ≤ 100 ∧ (∀ op ∈ sampleCalls, op.sizeNonneg) ∧
    0 ≤ (run 100 (initPool programStart) sampleCalls).freeIndex ∧
    (run 100 (initPool programStart) sampleCalls).freeIndex ≤ 100 :=
  ⟨by decide, by decide,
    freeIndex_in_bounds 100 programStart sampleCalls (by decide) (by decide)⟩

/-- C14: in every state reached from `initPool` by calls whose insertion sizes are
non-negative, the byte ranges of two records with retain count above 0 at different places
of the table share no address, and the range of each such record lies in `[0, freeIndex)`:
it starts at or after 0 and ends at or before the free index. -/
theorem live_ranges_disjoint (M : Int) (s0 : State) (ops : List Op)
    (hops : ∀ op ∈ ops, op.sizeNonneg) :
    (∀ (i j : Nat) (hi : i < (run M (initPool s0) ops).memBlocks.length)
        (hj : j < (run M (initPool s0) ops).memBlocks.length), i ≠ j →
        0 < ((run M (initPool s0) ops).memBlocks.get ⟨i, hi⟩).count →
        0 < ((run M (initPool s0) ops).memBlocks.get ⟨j, hj⟩).count →
        ∀ x : Int, ¬ (((run M (initPool s0) ops).memBlocks.get ⟨i, hi⟩).covers x ∧
          ((run M (initPool s0) ops).memBlocks.get ⟨j, hj⟩).covers x)) ∧
    (∀ b ∈ (run M (initPool s0) ops).memBlocks, 0 < b.count →
      0 ≤ b.startAddr ∧ b.startAddr + b.numBytes ≤ (run M (initPool s0) ops).freeIndex) := by
  obtain ⟨hp, hf, hn⟩ := poolInv_run M ops (initPool s0) (poolInv_initPool s0) hops
  constructor
  · have hpw := List.pairwise_iff_getElem.1 (packed_pairwise 0 _ hp hn)
    intro i j hi hj hij _ _ x hx
    obtain ⟨⟨a1, a2⟩, ⟨b1, b2⟩⟩ := hx
    simp only [List.get_eq_getElem] at a1 a2 b1 b2
    rcases Nat.lt_or_gt_of_ne hij with hlt | hgt
    · have := hpw i j hi hj hlt
      omega
    · have := hpw j i hj hi hgt
      omega
  · intro b hb _
    have := packed_bounds 0 _ hp hn b hb
    rw [hf]
    constructor <;> omega

/-- Witness of `live_ranges_disjoint`: capacity 100 and a run with a compaction and a failed
insertion. -/
theorem live_ranges_disjoint_witness :
    (∀ op ∈ sampleCalls, op.sizeNonneg) ∧
    (∀ (i j : Nat) (hi : i < (run 100 (initPool programStart) sampleCalls).memBlocks.length)
        (hj : j < (run 100 (initPool programStart) sampleCalls).memBlocks.length), i ≠ j →
        0 < ((run 100 (initPool programStart) sampleCalls).memBlocks.get ⟨i, hi⟩).count →
        0 < ((run 100 (initPool programStart) sampleCalls).memBlocks.get ⟨j, hj⟩).count →
        ∀ x : Int, ¬ (((run 100 (initPool programStart) sampleCalls).memBlocks.get ⟨i, hi⟩).covers x ∧
          ((run 100 (initPool programStart) sampleCalls).memBlocks.get ⟨j, hj⟩).covers x)) ∧
    (∀ b ∈ (run 100 (initPool programStart) sampleCalls).memBlocks, 0 < b.count →
      0 ≤ b.startAddr ∧
      b.startAddr + b.numBytes ≤ (run 100 (initPool programStart) sampleCalls).freeIndex) :=
  ⟨by decide, live_ranges_disjoint 100 programStart sampleCalls (by decide)⟩

/-- C15: in any sequence of calls from the start of the program, the handles returned by the
insertions that allocate are non-null and strictly increasing in the order of the calls (so
none is issued twice, also after a compaction or a failed insertion), and in the state
reached no two records of the table have the same handle. -/
theorem handles_unique_increasing (M : Int) (ops : List Op) :
    (∀ r ∈ issuedHandles M programStart ops, r ≠ NULL_REF) ∧
    (issuedHandles M programStart ops).Pairwise (fun a b => a < b) ∧
    ((run M programStart ops).memBlocks.map MemBlock.ref).Nodup := by
  obtain ⟨h1, h2⟩ := issuedHandles_increasing M ops programStart handleInv_programStart
  refine ⟨?_, h2, ?_⟩
  · intro r hr hnull
    have h3 := h1 r hr
    rw [hnull] at h3
    exact absurd h3 (by decide)
  · have h := (handleInv_run M ops programStart handleInv_programStart).2.1
    exact h.imp (fun hab => Nat.ne_of_lt hab)

/-- Witness of `handles_unique_increasing`: capacity 100 and a run with a compaction and a
failed insertion, in which handle 3 is issued. -/
theorem handles_unique_increasing_witness :
    3 ∈ issuedHandles 100 programStart (Op.initPool :: sampleCalls) ∧ (3 : Ref) ≠ NULL_REF :=
  ⟨by decide,
    (handles_unique_increasing 100 (Op.initPool :: sampleCalls)).1 3 (by decide)⟩

/-- C16: an `insertObject` whose request fits (`size ≤ MEMORY_SIZE - freeIndex`) keeps the
table as it was and appends one record, keeps the active buffer and the bytes of both
buffers, and so keeps the result of `retrieveObject` for every handle already in the table;
`addReference`, `dropReference` and `retrieveObject` change no start address, nor the active
buffer, nor the free index. -/
theorem no_implicit_compaction (M : Int) (s : State) (size : Int) (r : Ref) :
    (size ≤ M - s.freeIndex →
      (insertObject M s size).2.memBlocks = s.memBlocks ++
        [{ numBytes := size, startAddr := s.freeIndex, ref := s.nextRef, count := 1 }] ∧
      (insertObject M s size).2.currBuffer = s.currBuffer ∧
      (insertObject M s size).2.buffer1 = s.buffer1 ∧
      (insertObject M s size).2.buffer2 = s.buffer2 ∧
      ((∃ b ∈ s.memBlocks, b.ref = r) →
        (retrieveObject (insertObject M s size).2 r).1 = (retrieveObject s r).1)) ∧
    ((addReference s r).memBlocks.map MemBlock.startAddr = s.memBlocks.map MemBlock.startAddr ∧
      (addReference s r).currBuffer = s.currBuffer ∧
      (addReference s r).freeIndex = s.freeIndex) ∧
    ((dropReference s r).memBlocks.map MemBlock.startAddr = s.memBlocks.map MemBlock.startAddr ∧
      (dropReference s r).currBuffer = s.currBuffer ∧
      (dropReference s r).freeIndex = s.freeIndex) ∧
    ((retrieveObject s r).2.memBlocks.map MemBlock.startAddr
        = s.memBlocks.map MemBlock.startAddr ∧
      (retrieveObject s r).2.currBuffer = s.currBuffer ∧
      (retrieveObject s r).2.freeIndex = s.freeIndex) := by
  refine ⟨?_, ⟨?_, rfl, rfl⟩, ⟨rfl, rfl, rfl⟩, ⟨rfl, rfl, rfl⟩⟩
  · intro hfit
    have h1 : ¬ M - s.freeIndex < size := by omega
    have e : insertObject M s size = allocateObject s size := by simp [insertObject, h1]
    rw [e]
    refine ⟨rfl, rfl, rfl, rfl, ?_⟩
    intro hr
    simp only [retrieveObject, allocateObject, retrieveLoop_append_of_mem _ _ r hr]
  · have e := congrArg (fun l => l.map (fun p : Ref × Int × Int => p.2.1))
      (addReferenceLoop_layout s.memBlocks r)
    simpa [addReference, List.map_map, Function.comp_def] using e

/-- Witness of `no_implicit_compaction`: capacity 100, free index 80, a request of 20 and the
lookup of handle 1. -/
theorem no_implicit_compaction_witness :
    (20 : Int) ≤ 100 - scenarioB.2.freeIndex ∧ (∃ b ∈ scenarioB.2.memBlocks, b.ref = 1) ∧
    (insertObject 100 scenarioB.2 20).2.memBlocks = scenarioB.2.memBlocks ++
      [{ numBytes := 20, startAddr := scenarioB.2.freeIndex, ref := scenarioB.2.nextRef,
         count := 1 }] ∧
    (insertObject 100 scenarioB.2 20).2.currBuffer = scenarioB.2.currBuffer ∧
    (insertObject 100 scenarioB.2 20).2.buffer1 = scenarioB.2.buffer1 ∧
    (insertObject 100 scenarioB.2 20).2.buffer2 = scenarioB.2.buffer2 ∧
    (retrieveObject (insertObject 100 scenarioB.2 20).2 1).1 = (retrieveObject scenarioB.2 1).1 :=
  ⟨by decide, by decide,
    ((no_implicit_compaction 100 scenarioB.2 20 1).1 (by decide)).1,
    ((no_implicit_compaction 100 scenarioB.2 20 1).1 (by decide)).2.1,
    ((no_implicit_compaction 100 scenarioB.2 20 1).1 (by decide)).2.2.1,
    ((no_implicit_compaction 100 scenarioB.2 20 1).1 (by decide)).2.2.2.1,
    ((no_implicit_compaction 100 scenarioB.2 20 1).1 (by decide)).2.2.2.2 (by decide)⟩

/-- C17 as stated fails: after `initPool`, `insertObject (40)` and `destroyPool`, a new
`initPool` leaves the handle counter at 2, and the next insertion returns handle 2. -/
theorem initPool_counter_counterexample :
    (initPool usedPool).memBlocks = [] ∧
    (initPool usedPool).nextRef = 2 ∧
    (initPool usedPool).nextRef ≠ 1 ∧
    insertSucceeds 100 (initPool usedPool) 40 ∧
    (insertObject 100 (initPool usedPool) 40).1 = 2 := by
  decide

/-- C17, amended: after `initPool`, from any prior state, the table is empty, the record
count is 0, the free index is 0, the active buffer is the first one, and the handle counter
is what it was before the call; so an insertion that allocates right after `initPool` returns
the prior value of the counter, which is 1 when the counter was still 1. -/
theorem initPool_resets (s : State) :
    (initPool s).memBlocks = [] ∧ (initPool s).numBlocks = 0 ∧ (initPool s).freeIndex = 0 ∧
    (initPool s).currBuffer = BufId.buffer1 ∧ (initPool s).nextRef = s.nextRef ∧
    (∀ M size : Int, insertSucceeds M (initPool s) size →
      (insertObject M (initPool s) size).1 = s.nextRef) ∧
    (s.nextRef = 1 → ∀ M size : Int, insertSucceeds M (initPool s) size →
      (insertObject M (initPool s) size).1 = 1) := by
  refine ⟨rfl, rfl, rfl, rfl, rfl, ?_, ?_⟩
  · intro M size hok
    exact (insertObject_succeeds_handle M (initPool s) size hok).1
  · intro h1 M size hok
    rw [(insertObject_succeeds_handle M (initPool s) size hok).1]
    exact h1

/-- Witness of `initPool_resets`: the first `initPool` of the program, capacity 100 and an
insertion of 40. -/
theorem initPool_resets_witness :
    programStart.nextRef = 1 ∧ insertSucceeds 100 (initPool programStart) 40 ∧
    (insertObject 100 (initPool programStart) 40).1 = programStart.nextRef ∧
    (insertObject 100 (initPool programStart) 40).1 = 1 :=
  ⟨rfl, by decide,
    (initPool_resets programStart).2.2.2.2.2.1 100 40 (by decide),
    (initPool_resets programStart).2.2.2.2.2.2 rfl 100 40 (by decide)⟩

/-- C18: for a handle `r` present in the table, `retrieveObject r` right after
`dropReference r` still finds the object, at the same location as before the release; and
`dropReference` changes neither the free index nor the handle, start address and size of any
record, nor which records are in the table. -/
theorem dropReference_deferred (s : State) (r : Ref) (h : ∃ b ∈ s.memBlocks, b.ref = r) :
    (retrieveObject (dropReference s r) r).1 ≠ none ∧
    (retrieveObject (dropReference s r) r).1 = (retrieveObject s r).1 ∧
    (dropReference s r).freeIndex = s.freeIndex ∧
    (dropReference s r).memBlocks.map (fun b => (b.ref, b.startAddr, b.numBytes))
      = s.memBlocks.map (fun b => (b.ref, b.startAddr, b.numBytes)) := by
  refine ⟨?_, rfl, rfl, rfl⟩
  intro hnone
  have h2 : retrieveLoop s.memBlocks r = none := by
    simpa [retrieveObject, dropReference] using hnone
  obtain ⟨b, hb, hbr⟩ := h
  exact (retrieveLoop_eq_none_iff _ _).1 h2 b hb hbr

/-- Witness of `dropReference_deferred`: handle 1 after two insertions. -/
theorem dropReference_deferred_witness :
    (∃ b ∈ scenarioB.2.memBlocks, b.ref = 1) ∧
    (retrieveObject (dropReference scenarioB.2 1) 1).1 ≠ none ∧
    (retrieveObject (dropReference scenarioB.2 1) 1).1 = (retrieveObject scenarioB.2 1).1 ∧
    (dropReference scenarioB.2 1).freeIndex = scenarioB.2.freeIndex ∧
    (dropReference scenarioB.2 1).memBlocks.map (fun b => (b.ref, b.startAddr, b.numBytes))
      = scenarioB.2.memBlocks.map (fun b => (b.ref, b.startAddr, b.numBytes)) :=
  ⟨by decide, dropReference_deferred scenarioB.2 1 (by decide)⟩

/-- C19 as stated fails: with capacity 100, after `initPool`, `insertObject (40)` and
`addReference (1)` 2147483647 times, the record of handle 1 has retain count -2147483648. -/
theorem counts_negative_counterexample :
    (run 100 (initPool programStart) overflowCalls).memBlocks = [⟨40, 0, 1, -2147483648⟩] ∧
    ¬ (∀ b ∈ (run 100 (initPool programStart) overflowCalls).memBlocks, 0 ≤ b.count) := by
  have h1 : (run 100 (run 100 (initPool programStart) [Op.insertObject 40])
      (List.replicate 2147483646 (Op.addReference 1))).memBlocks
      = [⟨40, 0, 1, 2147483647⟩] :=
    run_addReference_replicate 100 2147483646
      (run 100 (initPool programStart) [Op.insertObject 40]) ⟨40, 0, 1, 1⟩ 1
      rfl rfl (by norm_num) (by norm_num)
  have e : run 100 (initPool programStart) overflowCalls
      = step 100 (run 100 (run 100 (initPool programStart) [Op.insertObject 40])
          (List.replicate 2147483646 (Op.addReference 1))) (Op.addReference 1) :=
    (run_snoc 100 (initPool programStart)
      ([Op.insertObject 40] ++ List.replicate 2147483646 (Op.addReference 1))
      (Op.addReference 1)).trans
      (congrArg (fun t => step 100 t (Op.addReference 1))
        (run_append 100 (initPool programStart) [Op.insertObject 40]
          (List.replicate 2147483646 (Op.addReference 1))))
  have h2 : (run 100 (initPool programStart) overflowCalls).memBlocks
      = [⟨40, 0, 1, -2147483648⟩] := by
    rw [e, step_addReference_memBlocks, h1]
    decide
  refine ⟨h2, ?_⟩
  rw [h2]
  decide

/-- C19, amended: in every state reached from `initPool` by any calls (with any sizes and
handles, also `dropReference` of unknown handles or repeated) of which fewer than 2147483647
are `addReference` calls, every record of the table has a retain count of at least 0. -/
theorem counts_never_negative (M : Int) (s0 : State) (ops : List Op)
    (hcalls : addReferenceCalls ops < 2147483647) :
    ∀ b ∈ (run M (initPool s0) ops).memBlocks, 0 ≤ b.count := by
  intro b hb
  have h := counts_run M ops (initPool s0) 1 (le_refl _)
    (fun c hc => absurd hc (List.not_mem_nil _)) (by omega) b hb
  omega

/-- Witness of `counts_never_negative`: capacity 100; after an insertion, one `addReference`
and three `dropReference` of the handle, its record is in the table with a retain count that
is not negative. -/
theorem counts_never_negative_witness :
    addReferenceCalls releaseCalls < 2147483647 ∧
    (⟨40, 0, 1, 2⟩ : MemBlock) ∈ (run 100 (initPool programStart) releaseCalls).memBlocks ∧
    0 ≤ (⟨40, 0, 1, 2⟩ : MemBlock).count :=
  ⟨by decide, by decide,
    counts_never_negative 100 programStart releaseCalls (by decide) ⟨40, 0, 1, 2⟩ (by decide)⟩

/-- C20: in a state with non-negative record sizes and the byte ranges of all records
pairwise disjoint and inside `[0, freeIndex)`, the free index itself being non-negative (as
that interval supposes and as the data model requires), the free index after `compact` is at
most the free index before, and strictly below it when the table has a record with retain
count 0 and a positive size. -/
theorem compact_never_loses_space (s : State) (hF : 0 ≤ s.freeIndex)
    (hn : ∀ b ∈ s.memBlocks, 0 ≤ b.numBytes)
    (hd : s.memBlocks.Pairwise (fun a b => ∀ x : Int, ¬ (a.covers x ∧ b.covers x)))
    (hw : ∀ b ∈ s.memBlocks, ∀ x : Int, b.covers x → 0 ≤ x ∧ x < s.freeIndex) :
    (compact s).freeIndex ≤ s.freeIndex ∧
    ((∃ b ∈ s.memBlocks, b.count = 0 ∧ 0 < b.numBytes) →
      (compact s).freeIndex < s.freeIndex) := by
  have htot := disjoint_totalBytes_le_free s.memBlocks s.freeIndex hF hn hd hw
  rw [compact_freeIndex]
  constructor
  · exact le_trans (totalBytes_liveBlocks_le _ hn) htot
  · rintro ⟨d, hd1, hd2, hd3⟩
    have := totalBytes_liveBlocks_add_dead _ hn d hd1 hd2
    omega

/-- Witness of `compact_never_loses_space`: a table with a released record of 4 bytes and
free index 9; the free index after `compact` is below 9. -/
theorem compact_never_loses_space_witness :
    0 ≤ sampleState.freeIndex ∧
    (∀ b ∈ sampleState.memBlocks, 0 ≤ b.numBytes) ∧
    sampleState.memBlocks.Pairwise (fun a b => ∀ x : Int, ¬ (a.covers x ∧ b.covers x)) ∧
    (∀ b ∈ sampleState.memBlocks, ∀ x : Int, b.covers x → 0 ≤ x ∧ x < sampleState.freeIndex) ∧
    (∃ b ∈ sampleState.memBlocks, b.count = 0 ∧ 0 < b.numBytes) ∧
    (compact sampleState).freeIndex ≤ sampleState.freeIndex ∧
    (compact sampleState).freeIndex < sampleState.freeIndex :=
  have hd : sampleState.memBlocks.Pairwise
      (fun a b => ∀ x : Int, ¬ (a.covers x ∧ b.covers x)) := by
    simp only [sampleState, MemBlock.covers, List.pairwise_cons, List.mem_cons,
      List.mem_singleton, List.not_mem_nil, List.Pairwise.nil]
    refine ⟨?_, ?_, ?_, trivial⟩
    · intro b hb x hx
      rcases hb with rfl | rfl | hb
      · simp only at hx; omega
      · simp only at hx; omega
      · exact hb
    · intro b hb x hx
      rcases hb with rfl | hb
      · simp only at hx; omega
      · exact hb
    · intro b hb
      exact absurd hb (by simp)
  have hw : ∀ b ∈ sampleState.memBlocks, ∀ x : Int, b.covers x →
      0 ≤ x ∧ x < sampleState.freeIndex := by
    intro b hb x hx
    simp only [sampleState, List.mem_cons, List.mem_singleton, List.not_mem_nil, or_false] at hb
    simp only [MemBlock.covers] at hx
    rcases hb with rfl | rfl | rfl <;> simp only [sampleState] at hx ⊢ <;> omega
  ⟨by decide, by decide, hd, hw, by decide,
    (compact_never_loses_space sampleState (by decide) (by decide) hd hw).1,
    (compact_never_loses_space sampleState (by decide) (by decide) hd hw).2 (by decide)⟩

end ObjectManager
